import Mathlib

/-!
Verification development for the hierarchical time-series reconciliation
package (htsprophet/hts.py).  The Python source is shallowly embedded:
matrices are lists of rows (`List (List Nat)` for the 0/1 summing matrix,
`List ℚ` for series), numpy's distinction between 1-D vectors and 2-D
matrices is tracked with an explicit `Bool` flag where the source depends
on it, and operations that raise Python exceptions return `Option`/sum
types.
-/

namespace HtsProphet

/-- Element-wise sum of two vectors (numpy `+` on equal-length 1-D arrays). -/
def addVec (a b : List Nat) : List Nat := List.zipWith (· + ·) a b

/-- Column-wise sum of a list of rows, each of length `m`
(numpy `a.sum(axis = 0)`; the sum of an empty slice is the zero vector). -/
def colSum (m : Nat) (rows : List (List Nat)) : List Nat :=
  rows.foldl addVec (List.replicate m 0)

/-- `np.identity(m)` as a list of rows. -/
def identityMat (m : Nat) : List (List Nat) :=
  (List.range m).map (fun i => (List.range m).map (fun j => if i = j then 1 else 0))

/-- `np.all(B == 0)` on a stack of rows (also true for the empty stack,
matching numpy's convention on empty arrays). -/
def allZero (rows : List (List Nat)) : Bool :=
  rows.all (fun r => r.all (fun x => x == 0))

/-- One iteration of the inner block loop of `SummingMat` (hts.py lines
112-119).  The state is `((B-rows, B-is-2D), count)`: `B` starts as the 1-D
zero vector; a block `a = blMat[count:count+num2sum, :]` is sliced out of
`blMat`, its column-wise sum either replaces `B` (when `np.all(B == 0)`,
leaving `B` 1-D) or is stacked under `B` with `np.vstack` (making `B` 2-D). -/
def blockStep (m : Nat) (blRows : List (List Nat))
    (st : (List (List Nat) × Bool) × Nat) (num2sum : Nat) :
    (List (List Nat) × Bool) × Nat :=
  let a := (blRows.drop st.2).take num2sum
  let s := colSum m a
  (if allZero st.1.1 then ([s], false) else (st.1.1 ++ [s], true), st.2 + num2sum)

/-- One iteration of the outer level loop of `SummingMat` (hts.py lines
106-121), aggregating `blMat` by the sibling-count list `summing`.  Returns
`none` for the `IndexError` numpy raises at `blMat[count:num2sumInd, :]`
when `blMat` is a 1-D array (which happens when the previous level produced
a single aggregated row and was never `vstack`-ed). -/
def levelStep (m : Nat) (bl : List (List Nat) × Bool) (summing : List Nat) :
    Option (List (List Nat) × Bool) :=
  if summing = [] then some ([List.replicate m 0], false)
  else if bl.2 = false then none
  else some (summing.foldl (blockStep m bl.1) (([List.replicate m 0], false), 0)).1

/-- The level loop of `SummingMat`: processes the sibling-count lists in
the order `nodes[-1], nodes[-2], ..., nodes[1]`, each time stacking the
aggregated rows `B` on top of the accumulated matrix (`np.vstack((B,
finalMat))`) and continuing with `blMat = B`. -/
def smLoop (m : Nat) : List (List Nat) → List (List Nat) →
    (List (List Nat) × Bool) → Option (List (List Nat))
  | [], finalMat, _ => some finalMat
  | summing :: rest, finalMat, bl =>
    (levelStep m bl summing).bind (fun b => smLoop m rest (b.1 ++ finalMat) b)

/-- `SummingMat(nodes)` (hts.py lines 92-126): bottom-up construction of the
summing matrix.  `numAtLev[-1]` (reading the last level's sum) raises an
`IndexError` for an empty `nodes` list, modelled as `none`; the final matrix
is the all-ones top row stacked over the aggregated levels and the
bottom-level identity block. -/
def SummingMat (nodes : List (List Nat)) : Option (List (List Nat)) :=
  nodes.getLast?.bind (fun lastLev =>
    (smLoop lastLev.sum ((nodes.drop 1).reverse)
        (identityMat lastLev.sum) (identityMat lastLev.sum, true)).map
      (fun finalMat => List.replicate lastLev.sum 1 :: finalMat))

/-- Leaf count of a topology descriptor: the sum of the last level's
sibling counts (`numAtLev[-1]`). -/
def leafCount (nodes : List (List Nat)) : Nat := (nodes.getLastD []).sum

/-- A well-formed topology descriptor: non-empty, every level non-empty
with positive child counts, and each level's total child count equal to the
number of nodes listed at the next level. -/
def ValidNodes (nodes : List (List Nat)) : Prop :=
  nodes ≠ [] ∧ (∀ l ∈ nodes, l ≠ [] ∧ ∀ c ∈ l, 0 < c) ∧
    ∀ i, i < nodes.length - 1 →
      (nodes.getD i []).sum = (nodes.getD (i + 1) []).length

instance (nodes : List (List Nat)) : Decidable (ValidNodes nodes) := by
  unfold ValidNodes; infer_instance

/-- Aggregation of a stack of rows by a sibling-count list: one row per
count, each the column-wise sum of the corresponding contiguous block.
This is the intended effect of the inner block loop of `SummingMat`. -/
def agg (m : Nat) : List Nat → List (List Nat) → List (List Nat)
  | [], _ => []
  | c :: cs, rows => colSum m (rows.take c) :: agg m cs (rows.drop c)

/-- The stack of aggregated levels produced by the level loop, in the order
it accumulates them (each new level's rows on top). -/
def buildStack (m : Nat) : List (List Nat) → List (List Nat) → List (List Nat)
  | [], _ => []
  | s :: ss, bl => buildStack m ss (agg m s bl) ++ agg m s bl

/-- The row block of the topmost remaining level: `levGroupB m bl ts` is
`bl` aggregated through the levels of `ts` from the right (so for
`ts = [nodes 1, ..., nodes (L-1)]` and `bl` the leaf identity block it is
the block of level-1 rows). -/
def levGroupB (m : Nat) (bl : List (List Nat)) : List (List Nat) → List (List Nat)
  | [] => bl
  | t :: ts => agg m t (levGroupB m bl ts)

/-- The full stacked matrix below the root row: the blocks of every level
of `ts` from the top down, ending with the base block `bl`. -/
def levStackB (m : Nat) (bl : List (List Nat)) : List (List Nat) → List (List Nat)
  | [] => bl
  | t :: ts => levGroupB m bl (t :: ts) ++ levStackB m bl ts

/-- Chain condition on the sibling-count lists in the order the level loop
processes them: each list is non-empty with positive counts and its total
matches the number of rows it aggregates. -/
def chainOK : List (List Nat) → Nat → Prop
  | [], _ => True
  | s :: ss, n => s ≠ [] ∧ (∀ c ∈ s, 0 < c) ∧ s.sum = n ∧ chainOK ss s.length

/-- Chain condition in top-down order: each level is non-empty with
positive counts and its total equals the size of the next level (or `m`,
the base-block size, for the last level). -/
def ChainTo (m : Nat) : List (List Nat) → Prop
  | [] => True
  | t :: ts =>
    t ≠ [] ∧ (∀ c ∈ t, 0 < c) ∧
      t.sum = (match ts with | [] => m | t' :: _ => t'.length) ∧ ChainTo m ts

/-- Every row has length `m` and a non-zero total (so it is not the zero
vector). -/
def GoodRows (m : Nat) (rows : List (List Nat)) : Prop :=
  ∀ r ∈ rows, r.length = m ∧ r.sum ≠ 0

/-- Length of the last list of `ss`, or `n` when `ss` is empty. -/
def lastLen (ss : List (List Nat)) (n : Nat) : Nat :=
  match ss.getLast? with
  | none => n
  | some s => s.length

/-- Sum of the first `j` entries of a count list. -/
def prefixSum (l : List Nat) (j : Nat) : Nat := (l.take j).sum

/-- First row index of the level-`i` block in the summing matrix
(row 0 is the root; for `1 ≤ i ≤ L` the block of level `i` starts after the
blocks of levels `1 .. i-1`, whose row counts are the lengths of
`nodes 1 .. nodes (i-1)`; `i = L` addresses the leaf block). -/
def rowStart (nodes : List (List Nat)) (i : Nat) : Nat :=
  1 + (((nodes.drop 1).take (i - 1)).map List.length).sum

/-- The property claimed of the summing matrix: the root row (row 0) is the
element-wise sum of the rows of its direct children (the first
`(nodes 0).sum` rows below it), and for every level `1 ≤ i < L` the row of
the `j`-th node of level `i` is the element-wise sum of the rows of its
direct children, which form the block of `(nodes i) j` consecutive rows of
the next level starting at offset `prefixSum (nodes i) j`. -/
def ParentChildSum (nodes : List (List Nat)) (M : List (List Nat)) : Prop :=
  M.getD 0 [] = colSum (leafCount nodes) ((M.drop 1).take ((nodes.headD []).sum)) ∧
    ∀ i, i < nodes.length → 1 ≤ i → ∀ j, j < (nodes.getD i []).length →
      M.getD (rowStart nodes i + j) [] =
        colSum (leafCount nodes)
          ((M.drop (rowStart nodes (i + 1) + prefixSum (nodes.getD i []) j)).take
            ((nodes.getD i []).getD j 0))

instance (nodes M : List (List Nat)) : Decidable (ParentChildSum nodes M) := by
  unfold ParentChildSum; infer_instance

/-- `np.mean` of a list of values: sum divided by length (`0/0 = 0` on the
empty list, where numpy would produce `nan`). -/
def qmean (l : List ℚ) : ℚ := l.sum / (l.length : ℚ)

/-- One comparison step of Python `min`. -/
def qmin2 (a b : ℚ) : ℚ := if b < a then b else a

/-- Python `min` over a list of values (`0` on the empty list, which Python
rejects; `cvSelect` always applies it to a 5-element list). -/
def listMin (l : List ℚ) : ℚ :=
  match l with
  | [] => 0
  | a :: r => r.foldl qmin2 a

/-- Python `list.index`: position of the first occurrence of a value
(length of the list when absent; `min` guarantees presence here). -/
def idxOfQ : List ℚ → ℚ → Nat
  | [], _ => 0
  | a :: r, x => if a = x then 0 else idxOfQ r x + 1

/-- `methodList = ['OC','FP','PHA','AHP','BU']` (hts.py line 155). -/
def methodList : List String := ["OC", "FP", "PHA", "AHP", "BU"]

/-- `choices = [np.mean(MASE1), ..., np.mean(MASE5)]` (hts.py line 191),
from the five per-method MASE accumulation lists. -/
def cvChoices (m1 m2 m3 m4 m5 : List ℚ) : List ℚ :=
  [qmean m1, qmean m2, qmean m3, qmean m4, qmean m5]

/-- `choice = methodList[choices.index(min(choices))]` (hts.py line 192):
the method refit on the full data in cvSelect mode. -/
def cvChoice (m1 m2 m3 m4 m5 : List ℚ) : String :=
  methodList.getD
    (idxOfQ (cvChoices m1 m2 m3 m4 m5) (listMin (cvChoices m1 m2 m3 m4 m5))) ""

/-- Python negative slice `l[-n:]` (the whole list when `n = 0` or
`n ≥ len(l)`). -/
def lastSlice (l : List ℚ) (n : Nat) : List ℚ :=
  if n = 0 then l else l.drop (l.length - n)

/-- MASE numerator (hts.py line 183):
`sum(abs(yhat_window - actual_window))`. -/
def maseNum (fc ac : List ℚ) : ℚ :=
  ((List.zipWith (fun a b => a - b) fc ac).map (fun x => |x|)).sum

/-- MASE denominator (hts.py line 183):
`(n/(n-1)) * sum(abs(actual[1:] - actual[:-1]))` over the test window,
with `n` the window length.  Rational division is total (`x/0 = 0`),
whereas Python raises `ZeroDivisionError` at `n/(n-1)` for `n = 1`. -/
def maseDen (ac : List ℚ) : ℚ :=
  ((ac.length : ℚ) / ((ac.length : ℚ) - 1)) *
    ((List.zipWith (fun a b => a - b) (ac.drop 1) (ac.dropLast)).map (fun x => |x|)).sum

/-- The per-node MASE of hts.py line 183: the forecast series is sliced to
its last `n` entries (`yhat[-len(testIndex):]`) and compared against the
actual test window. -/
def mase (yhat ac : List ℚ) : ℚ := maseNum (lastSlice yhat ac.length) ac / maseDen ac

/-- The carrying-capacity argument of `hts`: absent, a numeric constant, or
a DataFrame with a given number of columns.  (These are exactly the types
the `isinstance` checks of hts.py lines 138-141 accept.) -/
inductive CapArg
  | none
  | const (c : ℚ)
  | df (ncols : Nat)

/-- The accepted method names (hts.py line 132). -/
def methodsAll : List String := ["OC", "FP", "PHA", "AHP", "BU", "cvSelect"]

/-- A DataFrame capacity argument whose column count differs from
`len(y.columns) - 1` (hts.py lines 142-147). -/
def capColsBad (cap : CapArg) (ycols : Nat) : Bool :=
  match cap with
  | CapArg.df n => decide ((n : Int) ≠ (ycols : Int) - 1)
  | _ => false

/-- The validation block of `hts` (hts.py lines 130-147), with `ycols` the
number of columns of `y`: returns the `sys.exit` message of the first
failing check, `none` when validation passes.  The pure type checks on
`cap`/`capF` (lines 138-141) cannot fail here because `CapArg` only
represents the accepted types. -/
def htsCheck (h : Int) (method : String) (nodes : List (List Nat)) (ycols : Nat)
    (cap capF : CapArg) : Option String :=
  if h < 1 then
    some ("you must set h to a positive number")
  else if ¬ method ∈ methodsAll then
    some ("not a valid method input")
  else if nodes.length < 1 then
    some ("nodes input should at least be of length 1")
  else if ((nodes.map List.sum).sum : Int) ≠ (ycols : Int) - 2 then
    some ("The sum of the nodes list does not equal the number of columns - 2")
  else if capColsBad cap ycols then
    some ("cap DataFrame should have a number of columns equal to the input Dataframe - 1")
  else if capColsBad capF ycols then
    some ("capF DataFrame should have a number of columns equal to the input Dataframe - 1")
  else Option.none

/-- Outcome of a run of `hts`: a fatal configuration error (via `sys.exit`)
before any forecasting, or the forecasting phase with the number of
`fitForecast` invocations it performs. -/
inductive HtsResult
  | configError (msg : String)
  | forecasts (backendCalls : Nat)

/-- Control flow of `hts` (hts.py lines 130-204): every validation failure
exits before any `fitForecast` call; otherwise the backend is invoked (five
candidate fits per fold plus one final refit in cvSelect mode, once for a
single method). -/
def htsRun (h : Int) (method : String) (nodes : List (List Nat)) (ycols : Nat)
    (cap capF : CapArg) (nFolds : Nat) : HtsResult :=
  match htsCheck h method nodes ycols cap capF with
  | some e => HtsResult.configError e
  | Option.none => HtsResult.forecasts (if method = "cvSelect" then 5 * nFolds + 1 else 1)

/-- Modelled from the spec: `fitForecast` (htsprophet/fitForecast.py, not
under src/) returns a mapping from node_index to a forecast table (spec
section 6), one entry per non-time column of the wide table, keyed
`0 .. len(y.columns) - 2` in wide-table order; key `k` therefore
corresponds to wide-table column `k + 1` (the total, then the intermediate
aggregates, then the leaves in summing-matrix leaf order, which makes the
code's `y.iloc[testIndex, key+1]` pick exactly node `k`'s series). -/
def fcKeys (ycols : Nat) : List Nat := List.range (ycols - 1)

/-- `y.iloc[testIndex, c].values`: one wide-table column restricted to the
test row positions. -/
def gather (col : List ℚ) (idx : List Nat) : List ℚ := idx.map (fun i => col.getD i 0)

/-- One fold's MASE appends for one method (hts.py lines 182-187): the loop
`for key in ynew.keys()` appends one value per key of the forecast mapping,
comparing `ynew[key].yhat[-len(testIndex):]` with wide-table column
`key + 1` over the fold's test indices.  `cols` is the wide table as a list
of columns and `fc key` the forecast series returned for that key. -/
def foldScores (cols : List (List ℚ)) (fc : Nat → List ℚ) (testIdx : List Nat) : List ℚ :=
  (fcKeys cols.length).map (fun k => mase (fc k) (gather (cols.getD (k + 1) []) testIdx))

/-- Accumulation of one method's MASE list across the folds, in fold order
(`oracle f k` is the forecast series the backend returns for key `k` on
fold `f`). -/
def cvMASEAux (cols : List (List ℚ)) (oracle : Nat → Nat → List ℚ) :
    List (List Nat) → Nat → List ℚ
  | [], _ => []
  | t :: ts, f => foldScores cols (oracle f) t ++ cvMASEAux cols oracle ts (f + 1)

/-- One method's full MASE accumulation list (`MASE1`, ..., `MASE5` of
hts.py lines 158-187). -/
def cvMASE (cols : List (List ℚ)) (oracle : Nat → Nat → List ℚ)
    (folds : List (List Nat)) : List ℚ :=
  cvMASEAux cols oracle folds 0

/-- The wide-table column indices scored by the cvSelect loop: `key + 1`
for every key of the forecast mapping. -/
def scoredCols (ycols : Nat) : List Nat := (fcKeys ycols).map (fun k => k + 1)

/-- Outcome of the validation prologue of `orderHier`: a `sys.exit` with a
message, an uncaught Python `TypeError`, or fall-through into the
series-construction phase. -/
inductive OHOutcome
  | exit (msg : String)
  | typeError
  | proceed
deriving DecidableEq

/-- Python `c in [1, 2, 3]` for an optional integer column-level argument
(`None in [1,2,3]` is `False`). -/
def in123 (c : Option Int) : Bool := c == some 1 || c == some 2 || c == some 3

/-- The validation prologue of `orderHier` (hts.py lines 273-282).  The
duplicate-level check on line 279 is the expression
`col1 == col2 | col1 == col3 | col2 == col3`: in Python bitwise `|` binds
tighter than `==` and comparisons chain, so it evaluates as
`(col1 == (col2 | col1)) and ((col2 | col1) == (col3 | col2)) and
((col3 | col2) == col3)`, left to right with short-circuiting; evaluating
`col3 | col2` raises `TypeError` when `col3` is `None`.  `col4` is never
validated.  Reaching line 279 guarantees `col1`, `col2` are integers. -/
def orderHierCheck (c1 c2 c3 _c4 : Option Int) : OHOutcome :=
  if ¬ in123 c1 then OHOutcome.exit ("col1 should equal 1, 2, 3, or 4")
  else if ¬ in123 c2 then OHOutcome.exit ("col2 should equal 1, 2, 3, or 4")
  else if c3 ≠ Option.none ∧ ¬ in123 c3 then OHOutcome.exit ("col3 should equal 1, 2, 3, or 4")
  else
    let a := c1.getD 0
    let b := c2.getD 0
    if a = Int.lor b a then
      match c3 with
      | Option.none => OHOutcome.typeError
      | Option.some x3 =>
        if Int.lor b a = Int.lor x3 b ∧ Int.lor x3 b = x3 then
          OHOutcome.exit ("col1, col2, and col3 should all have different values")
        else if c1 = Option.none then OHOutcome.exit ("You need at least 1 column specified")
        else OHOutcome.proceed
    else if c1 = Option.none then OHOutcome.exit ("You need at least 1 column specified")
    else OHOutcome.proceed

/-- Underscore-joined concatenation of two name keys; `orderHier` builds
every intermediate key and column name this way (strings are embedded as
`List Char`). -/
def uscJoin (a b : List Char) : List Char := a ++ '_' :: b

/-- Count of a character's occurrences in a string
(`col.count` on a single character, used by the reorder step). -/
def countC : List Char → Char → Nat
  | [], _ => 0
  | a :: s, c => (if a = c then 1 else 0) + countC s c

/-- Whether `p` is a prefix of `s`. -/
def isPre : List Char → List Char → Bool
  | [], _ => true
  | _ :: _, [] => false
  | x :: xs, y :: ys => x == y && isPre xs ys

/-- Scan for non-overlapping occurrences of the pattern `b :: p`: at skip
count 0 a position is tested (and a match skips the rest of the pattern's
length before scanning resumes); a positive skip count only counts down. -/
def strCountAux (b : Char) (p : List Char) : List Char → Nat → Nat
  | [], _ => 0
  | _ :: s, Nat.succ k => strCountAux b p s k
  | a :: s, 0 =>
    if isPre (b :: p) (a :: s) then 1 + strCountAux b p s p.length
    else strCountAux b p s 0

/-- Python `str.count` (`i.count(colname)` of hts.py lines 418, 424, 430):
the number of non-overlapping occurrences of `p` in `s`, scanning left to
right; an empty pattern is counted `len + 1` times, as in Python. -/
def strCount (s p : List Char) : Nat :=
  match p with
  | [] => s.length + 1
  | b :: p => strCountAux b p s 0

/-- All names of the next level below the names `ps`: every name crossed
with every distinct value of the next tag level (orderHier creates a
column for every such combination). -/
def extendNames (ps : List (List Char)) (vals : List (List Char)) : List (List Char) :=
  ps.flatMap (fun p => vals.map (fun v => uscJoin p v))

/-- The name lists of the levels strictly below the current one, given the
current level's names `cur` and the remaining tag-value lists. -/
def levelsAux (cur : List (List Char)) : List (List (List Char)) → List (List (List Char))
  | [] => []
  | u :: us => extendNames cur u :: levelsAux (extendNames cur u) us

/-- The per-level node-name lists of the hierarchy built from the distinct
tag values `uniqs` of each level (level-1 names are the level-1 values
themselves). -/
def levelLists : List (List (List Char)) → List (List (List Char))
  | [] => []
  | u :: us => u :: levelsAux u us

/-- The names of all descendants of the node named `p`, in the depth-first
order in which `orderHier` merges the columns into `y`
(hts.py lines 345-365). -/
def dfsFrom (p : List Char) : List (List (List Char)) → List (List Char)
  | [] => []
  | vs :: rest => vs.flatMap (fun v => uscJoin p v :: dfsFrom (uscJoin p v) rest)

/-- All node names in merge order: each level-1 value followed by its
descendants depth-first. -/
def mergeNames : List (List (List Char)) → List (List Char)
  | [] => []
  | vs :: rest => vs.flatMap (fun v => v :: dfsFrom v rest)

def timeName : List Char := ['t', 'i', 'm', 'e']

def totalName : List Char := ['t', 'o', 't', 'a', 'l']

/-- The column names of the wide table `y` in merge order: `time`, `total`,
then every node name depth-first (hts.py lines 341-365; the `rmZeros =
False` branch keeps a column for every tag-value combination). -/
def mergeCols (uniqs : List (List (List Char))) : List (List Char) :=
  timeName :: totalName :: mergeNames uniqs

/-- One bucket of the reorder step (hts.py lines 375-388): the columns with
exactly `k` underscores, in their original order. -/
def bucket (cols : List (List Char)) (k : Nat) : List (List Char) :=
  cols.filter (fun c => countC c '_' == k)

/-- The node-list derivation of `orderHier` (hts.py lines 375-432): the
columns are reordered into the four underscore-count buckets
(`newOrder = list1 ++ list2 ++ list3 ++ list4`), `nodes` starts as
`[[count1 - 2]]`, and for each deeper level present one entry is produced
per parent column position, summing `i.count(parent_name)` over the next
level's column slice. -/
def orderHierNodes (uniqs : List (List (List Char))) : List (List Nat) :=
  let cols := mergeCols uniqs
  let b0 := bucket cols 0
  let b1 := bucket cols 1
  let b2 := bucket cols 2
  let b3 := bucket cols 3
  let newOrder := b0 ++ b1 ++ b2 ++ b3
  let count1 := b0.length
  let count2 := b1.length
  let count3 := b2.length
  let count4 := b3.length
  let numIn := uniqs.length
  [[count1 - 2]] ++
    (if 1 < numIn then
      [(List.range' 2 (count1 - 2)).map (fun pos =>
        (((newOrder.drop count1).take count2).map
          (fun i => strCount i (newOrder.getD pos []))).sum)]
     else []) ++
    (if 2 < numIn then
      [(List.range' count1 count2).map (fun pos =>
        (((newOrder.drop (count1 + count2)).take count3).map
          (fun i => strCount i (newOrder.getD pos []))).sum)]
     else []) ++
    (if 3 < numIn then
      [(List.range' (count1 + count2) count3).map (fun pos =>
        (((newOrder.drop (count1 + count2 + count3)).take count4).map
          (fun i => strCount i (newOrder.getD pos []))).sum)]
     else [])

/-- The sibling-count lists the hierarchy actually has: one entry per
parent node, each equal to the next tag level's distinct-value count. -/
def idealAux (p : Nat) : List (List (List Char)) → List (List Nat)
  | [] => []
  | u :: us => List.replicate p u.length :: idealAux (p * u.length) us

/-- The intended topology descriptor for the crossed hierarchy: `[n1]` for
the root, then one entry per parent at each deeper level. -/
def idealNodes : List (List (List Char)) → List (List Nat)
  | [] => []
  | u :: us => [u.length] :: idealAux u.length us

/-- `s` is the name of a direct child of the node named `p` (a join of `p`
with one of the next level's values). -/
def childOf (vals : List (List Char)) (p s : List Char) : Prop :=
  ∃ v ∈ vals, s = uscJoin p v

instance (vals : List (List Char)) (p s : List Char) : Decidable (childOf vals p s) := by
  unfold childOf; infer_instance

/-- Collision-free naming: every level's name list has no duplicate
strings, and a parent's joined name occurs (as a Python substring count)
exactly once in each of its children's names and never in any other name
of the child level. -/
def CollisionFree (uniqs : List (List (List Char))) : Prop :=
  (∀ j, j < uniqs.length → ((levelLists uniqs).getD j []).Nodup) ∧
    ∀ j, j < uniqs.length - 1 → ∀ p ∈ (levelLists uniqs).getD j [],
      ∀ s ∈ (levelLists uniqs).getD (j + 1) [],
        strCount s p = if childOf (uniqs.getD (j + 1) []) p s then 1 else 0

instance (uniqs : List (List (List Char))) : Decidable (CollisionFree uniqs) := by
  unfold CollisionFree; infer_instance

/-- The claim's counting rule: the number of level-`L` names having `p` as
a string prefix, each name counted at most once. -/
def prefixCount (p : List Char) (names : List (List Char)) : Nat :=
  names.countP (fun s => isPre p s)

end HtsProphet

namespace HtsProphet

theorem addVec_replicate_zero_left (r : List Nat) (m : Nat) :
    addVec (List.replicate m 0) r = r.take m := by
  induction r generalizing m with
  | nil => cases m <;> simp [addVec]
  | cons a r ih =>
    cases m with
    | zero => simp [addVec]
    | succ m => simpa [addVec, List.replicate_succ] using ih m

theorem addVec_replicate_zero_right (a : List Nat) (m : Nat) :
    addVec a (List.replicate m 0) = a.take m := by
  induction a generalizing m with
  | nil => cases m <;> simp [addVec]
  | cons x a ih =>
    cases m with
    | zero => simp [addVec]
    | succ m => simpa [addVec, List.replicate_succ] using ih m

theorem addVec_assoc (a b c : List Nat) :
    addVec (addVec a b) c = addVec a (addVec b c) := by
  induction a generalizing b c with
  | nil => simp [addVec]
  | cons x a ih =>
    cases b with
    | nil => simp [addVec]
    | cons y b =>
      cases c with
      | nil => simp [addVec]
      | cons z c =>
        have h := ih b c
        simp only [addVec, List.zipWith_cons_cons] at h ⊢
        rw [Nat.add_assoc, h]

theorem addVec_length (a b : List Nat) :
    (addVec a b).length = min a.length b.length := by
  simp [addVec]

theorem addVec_sum (a b : List Nat) (h : a.length = b.length) :
    (addVec a b).sum = a.sum + b.sum := by
  induction a generalizing b with
  | nil => cases b <;> simp_all [addVec]
  | cons x a ih =>
    cases b with
    | nil => simp at h
    | cons y b =>
      simp only [List.length_cons, Nat.succ_inj] at h
      simp [addVec] at ih ⊢
      rw [ih b h]
      omega

theorem foldl_addVec (rows : List (List Nat)) (m : Nat) :
    ∀ acc : List Nat, acc.length = m → (∀ r ∈ rows, r.length = m) →
      rows.foldl addVec acc = addVec acc (colSum m rows) := by
  induction rows with
  | nil =>
    intro acc hacc _
    simp [colSum, addVec_replicate_zero_right, ← hacc]
  | cons r rs ih =>
    intro acc hacc hr
    have hrlen : r.length = m := hr r (by simp)
    have hrs : ∀ x ∈ rs, x.length = m := fun x hx => hr x (by simp [hx])
    have hlen : (addVec acc r).length = m := by
      rw [addVec_length, hacc, hrlen]; omega
    have htake : List.take m r = r := List.take_of_length_le (le_of_eq hrlen)
    have h1 : List.foldl addVec acc (r :: rs) = List.foldl addVec (addVec acc r) rs := rfl
    have h2 : colSum m (r :: rs) = List.foldl addVec (addVec (List.replicate m 0) r) rs := rfl
    rw [h1, ih (addVec acc r) hlen hrs, h2, addVec_replicate_zero_left, htake,
      ih r (by rw [hrlen]) hrs, addVec_assoc]

theorem colSum_nil (m : Nat) : colSum m [] = List.replicate m 0 := rfl

theorem colSum_cons (m : Nat) (r : List Nat) (rs : List (List Nat))
    (hr : r.length = m) (hrs : ∀ x ∈ rs, x.length = m) :
    colSum m (r :: rs) = addVec r (colSum m rs) := by
  have htake : List.take m r = r := List.take_of_length_le (le_of_eq hr)
  have h2 : colSum m (r :: rs) = List.foldl addVec (addVec (List.replicate m 0) r) rs := rfl
  rw [h2, addVec_replicate_zero_left, htake, foldl_addVec rs m r (by rw [hr]) hrs]

theorem colSum_length (m : Nat) (rows : List (List Nat))
    (h : ∀ r ∈ rows, r.length = m) : (colSum m rows).length = m := by
  induction rows with
  | nil => simp [colSum]
  | cons r rs ih =>
    have hr : r.length = m := h r (by simp)
    have hrs : ∀ x ∈ rs, x.length = m := fun x hx => h x (by simp [hx])
    rw [colSum_cons m r rs hr hrs, addVec_length, hr, ih hrs]
    omega

theorem colSum_append (m : Nat) (rs1 rs2 : List (List Nat))
    (h1 : ∀ r ∈ rs1, r.length = m) (h2 : ∀ r ∈ rs2, r.length = m) :
    colSum m (rs1 ++ rs2) = addVec (colSum m rs1) (colSum m rs2) := by
  have h3 : colSum m (rs1 ++ rs2) = List.foldl addVec (colSum m rs1) rs2 := by
    simp [colSum, List.foldl_append]
  rw [h3, foldl_addVec rs2 m _ (colSum_length m rs1 h1) h2]

theorem colSum_sum (m : Nat) (rows : List (List Nat))
    (h : ∀ r ∈ rows, r.length = m) :
    (colSum m rows).sum = (rows.map List.sum).sum := by
  induction rows with
  | nil => simp [colSum]
  | cons r rs ih =>
    have hr : r.length = m := h r (by simp)
    have hrs : ∀ x ∈ rs, x.length = m := fun x hx => h x (by simp [hx])
    rw [colSum_cons m r rs hr hrs, addVec_sum r _ (by rw [hr, colSum_length m rs hrs]),
      List.map_cons, List.sum_cons, ih hrs]

theorem agg_length (m : Nat) (s : List Nat) (rows : List (List Nat)) :
    (agg m s rows).length = s.length := by
  induction s generalizing rows with
  | nil => simp [agg]
  | cons c cs ih => simp [agg, ih]

theorem agg_rows_length (m : Nat) (s : List Nat) (rows : List (List Nat))
    (h : ∀ r ∈ rows, r.length = m) :
    ∀ r ∈ agg m s rows, r.length = m := by
  induction s generalizing rows with
  | nil => simp [agg]
  | cons c cs ih =>
    intro r hr
    simp only [agg, List.mem_cons] at hr
    rcases hr with hr | hr
    · subst hr
      exact colSum_length m _ (fun x hx => h x (List.mem_of_mem_take hx))
    · exact ih (rows.drop c) (fun x hx => h x (List.mem_of_mem_drop hx)) r hr

theorem agg_rows_sum_ne_zero (m : Nat) (s : List Nat) (rows : List (List Nat))
    (hpos : ∀ c ∈ s, 0 < c) (hsum : s.sum = rows.length)
    (hrows : GoodRows m rows) :
    ∀ r ∈ agg m s rows, r.sum ≠ 0 := by
  induction s generalizing rows with
  | nil => simp [agg]
  | cons c cs ih =>
    intro r hr
    have hlen : ∀ x ∈ rows, x.length = m := fun x hx => (hrows x hx).1
    simp only [agg, List.mem_cons] at hr
    rcases hr with hr | hr
    · subst hr
      have hc : 0 < c := hpos c (by simp)
      have hne : rows ≠ [] := by
        intro hnil
        rw [hnil] at hsum
        simp at hsum
        omega
      obtain ⟨r0, rows', hr0⟩ := List.exists_cons_of_ne_nil hne
      subst hr0
      have htake : (r0 :: rows').take c = r0 :: rows'.take (c - 1) := by
        obtain ⟨c', rfl⟩ := Nat.exists_eq_succ_of_ne_zero (Nat.pos_iff_ne_zero.mp hc)
        simp
      rw [colSum_sum m _ (fun x hx => hlen x (List.mem_of_mem_take hx)), htake]
      have h0 : r0.sum ≠ 0 := (hrows r0 (by simp)).2
      simp only [List.map_cons, List.sum_cons]
      omega
    · refine ih (rows.drop c)
        (fun x hx => hpos x (by simp [hx])) ?_
        (fun x hx => hrows x (List.mem_of_mem_drop hx)) r hr
      simp only [List.sum_cons] at hsum
      rw [List.length_drop]
      omega

theorem agg_getD (m : Nat) (s : List Nat) (rows : List (List Nat)) :
    ∀ j, j < s.length →
      (agg m s rows).getD j [] =
        colSum m ((rows.drop (prefixSum s j)).take (s.getD j 0)) := by
  induction s generalizing rows with
  | nil => intro j hj; simp at hj
  | cons c cs ih =>
    intro j hj
    cases j with
    | zero => simp [agg, prefixSum]
    | succ j =>
      simp only [agg, List.getD_cons_succ]
      rw [ih (rows.drop c) j (by simpa using hj), List.drop_drop]
      have hps : prefixSum (c :: cs) (j + 1) = c + prefixSum cs j := by
        simp [prefixSum, List.take_succ_cons]
      rw [hps]

theorem agg_colSum (m : Nat) (s : List Nat) (rows : List (List Nat))
    (hsum : s.sum = rows.length) (hrows : ∀ r ∈ rows, r.length = m) :
    colSum m (agg m s rows) = colSum m rows := by
  induction s generalizing rows with
  | nil =>
    have : rows = [] := by
      simp only [List.sum_nil] at hsum
      exact List.eq_nil_of_length_eq_zero hsum.symm
    simp [agg, this]
  | cons c cs ih =>
    have htl : ∀ x ∈ rows.take c, x.length = m := fun x hx => hrows x (List.mem_of_mem_take hx)
    have hdl : ∀ x ∈ rows.drop c, x.length = m := fun x hx => hrows x (List.mem_of_mem_drop hx)
    have hstep : colSum m (agg m (c :: cs) rows) =
        addVec (colSum m (rows.take c)) (colSum m (agg m cs (rows.drop c))) := by
      refine colSum_cons m _ _ (colSum_length m _ htl) (agg_rows_length m _ _ hdl)
    rw [hstep, ih (rows.drop c) ?_ hdl, ← colSum_append m _ _ htl hdl,
      List.take_append_drop]
    simp only [List.sum_cons] at hsum
    rw [List.length_drop]
    omega

theorem identityMat_length (m : Nat) : (identityMat m).length = m := by
  simp [identityMat]

theorem identityMat_rows_length (m : Nat) :
    ∀ r ∈ identityMat m, r.length = m := by
  intro r hr
  simp only [identityMat, List.mem_map] at hr
  obtain ⟨i, _, rfl⟩ := hr
  simp

theorem sum_map_range_indicator (n j : Nat) (hj : j < n) :
    ((List.range n).map (fun i => if i = j then 1 else 0)).sum = 1 := by
  induction n with
  | zero => omega
  | succ n ih =>
    rw [List.range_succ, List.map_append, List.sum_append]
    rcases Nat.lt_or_ge j n with h | h
    · rw [ih h]
      have : ¬ (n = j) := by omega
      simp [this]
    · have hjn : j = n := by omega
      subst hjn
      have hz : ((List.range j).map (fun i => if i = j then 1 else 0)).sum = 0 := by
        apply List.sum_eq_zero
        intro x hx
        simp only [List.mem_map, List.mem_range] at hx
        obtain ⟨i, hi, rfl⟩ := hx
        have : ¬ (i = j) := by omega
        simp [this]
      simp [hz]

theorem identityMat_row_sum (m : Nat) :
    ∀ r ∈ identityMat m, r.sum = 1 := by
  intro r hr
  simp only [identityMat, List.mem_map, List.mem_range] at hr
  obtain ⟨i, hi, rfl⟩ := hr
  have h := sum_map_range_indicator m i hi
  calc ((List.range m).map (fun j => if i = j then 1 else 0)).sum
      = ((List.range m).map (fun j => if j = i then 1 else 0)).sum := by
        refine congrArg List.sum (List.map_congr_left ?_)
        intro a _
        by_cases hai : a = i
        · simp [hai]
        · have hia : ¬ i = a := fun hh => hai hh.symm
          simp [hai, hia]
    _ = 1 := sum_map_range_indicator m i hi

theorem identityMat_good (m : Nat) : GoodRows m (identityMat m) := by
  intro r hr
  exact ⟨identityMat_rows_length m r hr, by rw [identityMat_row_sum m r hr]; omega⟩

theorem addVec_getD (a b : List Nat) (j : Nat) (hja : j < a.length)
    (hjb : j < b.length) :
    (addVec a b).getD j 0 = a.getD j 0 + b.getD j 0 := by
  induction a generalizing b j with
  | nil => simp at hja
  | cons x a ih =>
    cases b with
    | nil => simp at hjb
    | cons y b =>
      cases j with
      | zero => simp [addVec]
      | succ j =>
        simp only [addVec, List.zipWith_cons_cons, List.getD_cons_succ]
        exact ih b j (by simpa using hja) (by simpa using hjb)

theorem colSum_getD (m : Nat) (rows : List (List Nat)) (j : Nat)
    (hrows : ∀ r ∈ rows, r.length = m) (hj : j < m) :
    (colSum m rows).getD j 0 = (rows.map (fun r => r.getD j 0)).sum := by
  induction rows with
  | nil => simp [colSum, List.getD_eq_getElem?_getD]
  | cons r rs ih =>
    have hr : r.length = m := hrows r (by simp)
    have hrs : ∀ x ∈ rs, x.length = m := fun x hx => hrows x (by simp [hx])
    have hj1 : j < r.length := by omega
    have hj2 : j < (colSum m rs).length := by rw [colSum_length m rs hrs]; omega
    rw [colSum_cons m r rs hr hrs, addVec_getD r (colSum m rs) j hj1 hj2,
      List.map_cons, List.sum_cons, ih hrs]

theorem colSum_identityMat (m : Nat) :
    colSum m (identityMat m) = List.replicate m 1 := by
  apply List.ext_getElem
  · rw [colSum_length m _ (identityMat_rows_length m), List.length_replicate]
  · intro j hj1 hj2
    have hjm : j < m := by
      rwa [colSum_length m _ (identityMat_rows_length m)] at hj1
    have h1 : (colSum m (identityMat m))[j] =
        (colSum m (identityMat m)).getD j 0 := by
      rw [List.getD_eq_getElem?_getD, List.getElem?_eq_getElem hj1]
      rfl
    rw [h1, colSum_getD m _ j (identityMat_rows_length m) hjm]
    have h2 : (identityMat m).map (fun r => r.getD j 0) =
        (List.range m).map (fun i => if i = j then 1 else 0) := by
      simp only [identityMat, List.map_map]
      refine List.map_congr_left ?_
      intro i hi
      simp only [Function.comp_apply]
      rw [List.getD_eq_getElem?_getD]
      have : ((List.range m).map (fun j' => if i = j' then 1 else 0))[j]? =
          some (if i = j then 1 else 0) := by
        rw [List.getElem?_eq_getElem (by simpa using hjm)]
        simp
      rw [this]
      rfl
    rw [h2, sum_map_range_indicator m j hjm]
    simp [hjm]

theorem allZero_single_replicate (m : Nat) :
    allZero [List.replicate m 0] = true := by
  simp [allZero, List.all_eq_true]

theorem allZero_false_of_sum_ne_zero (r : List Nat) (h : r.sum ≠ 0) :
    ∀ rs : List (List Nat), r ∈ rs → allZero rs = false := by
  intro rs hr
  rw [allZero, List.all_eq_false]
  refine ⟨r, hr, ?_⟩
  intro hall
  rw [List.all_eq_true] at hall
  apply h
  apply List.sum_eq_zero
  intro x hx
  simpa using hall x hx

theorem blockFold_aux (m : Nat) (blRows : List (List Nat)) :
    ∀ (s : List Nat) (B : List (List Nat)) (f : Bool) (pre : Nat),
      allZero B = false →
      s.foldl (blockStep m blRows) ((B, f), pre) =
        ((B ++ agg m s (blRows.drop pre), if s = [] then f else true), pre + s.sum) := by
  intro s
  induction s with
  | nil => intro B f pre _; simp [agg]
  | cons c cs ih =>
    intro B f pre hB
    have hstep : blockStep m blRows ((B, f), pre) c =
        ((B ++ [colSum m ((blRows.drop pre).take c)], true), pre + c) := by
      simp [blockStep, hB]
    have hBne : allZero (B ++ [colSum m ((blRows.drop pre).take c)]) = false := by
      rw [allZero] at hB ⊢
      rw [List.all_append, hB]
      rfl
    have h1 : (c :: cs).foldl (blockStep m blRows) ((B, f), pre) =
        cs.foldl (blockStep m blRows) ((B ++ [colSum m ((blRows.drop pre).take c)], true), pre + c) := by
      rw [List.foldl_cons, hstep]
    rw [h1, ih _ true (pre + c) hBne]
    have hagg : agg m (c :: cs) (blRows.drop pre) =
        colSum m ((blRows.drop pre).take c) :: agg m cs (blRows.drop (pre + c)) := by
      rw [agg, List.drop_drop]
    have hsplit : B ++ [colSum m ((blRows.drop pre).take c)] ++ agg m cs (blRows.drop (pre + c)) =
        B ++ agg m (c :: cs) (blRows.drop pre) := by
      rw [hagg, List.append_assoc]
      rfl
    rw [hsplit]
    have hflag : (if cs = [] then true else true) = (if c :: cs = [] then f else true) := by
      cases cs <;> simp
    rw [hflag]
    have hsum : pre + c + cs.sum = pre + (c :: cs).sum := by
      simp [Nat.add_assoc]
    rw [hsum]

theorem levelStep_char (m : Nat) (blRows : List (List Nat)) (s : List Nat)
    (hne : s ≠ []) (hpos : ∀ c ∈ s, 0 < c) (hsum : s.sum = blRows.length)
    (hrows : GoodRows m blRows) :
    levelStep m (blRows, true) s = some (agg m s blRows, decide (2 ≤ s.length)) := by
  obtain ⟨c, cs, rfl⟩ := List.exists_cons_of_ne_nil hne
  have hc : 0 < c := hpos c (by simp)
  have hrne : blRows ≠ [] := by
    intro hnil
    rw [hnil] at hsum
    simp only [List.sum_cons, List.length_nil] at hsum
    omega
  have hstep1 : blockStep m blRows (([List.replicate m 0], false), 0) c =
      (([colSum m (blRows.take c)], false), c) := by
    simp [blockStep, allZero_single_replicate]
  have hsum0 : (colSum m (blRows.take c)).sum ≠ 0 := by
    obtain ⟨r0, rows', rfl⟩ := List.exists_cons_of_ne_nil hrne
    have htake : (r0 :: rows').take c = r0 :: rows'.take (c - 1) := by
      obtain ⟨c', rfl⟩ := Nat.exists_eq_succ_of_ne_zero (Nat.pos_iff_ne_zero.mp hc)
      simp
    rw [colSum_sum m _ (fun x hx => (hrows x (List.mem_of_mem_take hx)).1), htake]
    have h0 : r0.sum ≠ 0 := (hrows r0 (by simp)).2
    simp only [List.map_cons, List.sum_cons]
    omega
  have hB : allZero [colSum m (blRows.take c)] = false :=
    allZero_false_of_sum_ne_zero _ hsum0 _ (by simp)
  have h2 : levelStep m (blRows, true) (c :: cs) =
      some ((c :: cs).foldl (blockStep m blRows) (([List.replicate m 0], false), 0)).1 := by
    rw [levelStep]
    simp
  rw [h2, List.foldl_cons, hstep1, blockFold_aux m blRows cs _ false c hB]
  have hagg : agg m (c :: cs) blRows =
      colSum m (blRows.take c) :: agg m cs (blRows.drop c) := rfl
  have hcc : [colSum m (blRows.take c)] ++ agg m cs (blRows.drop c) =
      agg m (c :: cs) blRows := by
    rw [hagg]
    rfl
  have hdrop : blRows.drop c = blRows.drop (0 + c) := by rw [Nat.zero_add]
  have hflag : (if cs = [] then false else true) = decide (2 ≤ (c :: cs).length) := by
    cases cs <;> simp
  simp only [← hdrop] at *
  rw [hcc, hflag]

theorem smLoop_eq (m : Nat) :
    ∀ (ss : List (List Nat)) (bl final M : List (List Nat)),
      chainOK ss bl.length → GoodRows m bl →
      smLoop m ss final (bl, true) = some M →
      M = buildStack m ss bl ++ final := by
  intro ss
  induction ss with
  | nil =>
    intro bl final M _ _ h
    simp only [smLoop, Option.some_inj] at h
    simp [buildStack, ← h]
  | cons s ss ih =>
    intro bl final M hchain hrows h
    obtain ⟨hne, hpos, hsum, hrest⟩ := hchain
    have hchar := levelStep_char m bl s hne hpos hsum hrows
    rw [smLoop, hchar, Option.some_bind] at h
    have hglen : (agg m s bl).length = s.length := agg_length m s bl
    have hgood : GoodRows m (agg m s bl) := by
      intro r hr
      exact ⟨agg_rows_length m s bl (fun x hx => (hrows x hx).1) r hr,
        agg_rows_sum_ne_zero m s bl hpos hsum hrows r hr⟩
    cases ss with
    | nil =>
      simp only [smLoop, Option.some_inj] at h
      simp [buildStack, ← h]
    | cons t ts =>
      have ht_ne : t ≠ [] := hrest.1
      cases hflag : decide (2 ≤ s.length) with
      | false =>
        exfalso
        rw [hflag] at h
        have hno : levelStep m (agg m s bl, false) t = none := by
          rw [levelStep]
          simp [ht_ne]
        rw [smLoop, hno] at h
        exact Option.noConfusion h
      | true =>
        rw [hflag] at h
        have hM := ih (agg m s bl) (agg m s bl ++ final) M
          (by rw [hglen]; exact hrest) hgood h
        rw [hM]
        simp [buildStack, List.append_assoc]

theorem levGroupB_append_one (m : Nat) (s : List Nat) :
    ∀ (ts : List (List Nat)) (bl : List (List Nat)),
      levGroupB m bl (ts ++ [s]) = levGroupB m (agg m s bl) ts := by
  intro ts
  induction ts with
  | nil => intro bl; simp [levGroupB]
  | cons t ts ih => intro bl; simp [levGroupB, ih]

theorem levStackB_append_one (m : Nat) (s : List Nat) :
    ∀ (ts : List (List Nat)) (bl : List (List Nat)),
      levStackB m bl (ts ++ [s]) = levStackB m (agg m s bl) ts ++ bl := by
  intro ts
  induction ts with
  | nil => intro bl; simp [levStackB, levGroupB]
  | cons t ts ih =>
    intro bl
    have h1 : (t :: ts) ++ [s] = t :: (ts ++ [s]) := rfl
    rw [h1, levStackB, ih bl, levStackB]
    have h2 : levGroupB m bl (t :: (ts ++ [s])) = levGroupB m (agg m s bl) (t :: ts) := by
      have h3 : t :: (ts ++ [s]) = (t :: ts) ++ [s] := rfl
      rw [h3, levGroupB_append_one]
    rw [h2, List.append_assoc]

theorem buildStack_levStackB (m : Nat) :
    ∀ (ss : List (List Nat)) (bl : List (List Nat)),
      buildStack m ss bl ++ bl = levStackB m bl ss.reverse := by
  intro ss
  induction ss with
  | nil => intro bl; simp [buildStack, levStackB]
  | cons s ss ih =>
    intro bl
    rw [List.reverse_cons, levStackB_append_one, ← ih (agg m s bl), buildStack,
      List.append_assoc]

theorem lastLen_cons (s : List Nat) (ss : List (List Nat)) (n : Nat) :
    lastLen (s :: ss) n = lastLen ss s.length := by
  cases ss with
  | nil => simp [lastLen]
  | cons t ts =>
    have h1 : lastLen (s :: t :: ts) n = lastLen (t :: ts) n := by
      rw [lastLen, lastLen, List.getLast?_cons_cons]
    rw [h1]
    cases hl : (t :: ts).getLast? with
    | none => exact absurd (List.getLast?_eq_none_iff.mp hl) (by simp)
    | some x => rw [lastLen, lastLen, hl]

theorem chainOK_append_one :
    ∀ (ss : List (List Nat)) (n : Nat) (t : List Nat),
      chainOK ss n → t ≠ [] → (∀ c ∈ t, 0 < c) → t.sum = lastLen ss n →
      chainOK (ss ++ [t]) n := by
  intro ss
  induction ss with
  | nil =>
    intro n t _ h1 h2 h3
    simp only [lastLen, List.getLast?_nil] at h3
    exact ⟨h1, h2, h3, trivial⟩
  | cons s ss ih =>
    intro n t hchain h1 h2 h3
    obtain ⟨hs1, hs2, hs3, hs4⟩ := hchain
    rw [lastLen_cons] at h3
    exact ⟨hs1, hs2, hs3, ih s.length t hs4 h1 h2 h3⟩

theorem chainTo_chainOK (m : Nat) :
    ∀ ts : List (List Nat), ChainTo m ts → chainOK ts.reverse m := by
  intro ts
  induction ts with
  | nil => intro _; trivial
  | cons t ts ih =>
    intro hchain
    obtain ⟨h1, h2, h3, h4⟩ := hchain
    rw [List.reverse_cons]
    refine chainOK_append_one ts.reverse m t (ih h4) h1 h2 ?_
    rw [lastLen]
    rw [List.getLast?_reverse]
    cases ts with
    | nil => simpa using h3
    | cons t' ts' => simpa using h3

theorem chainTo_drop (m : Nat) :
    ∀ (ts : List (List Nat)) (k : Nat), ChainTo m ts → ChainTo m (ts.drop k) := by
  intro ts
  induction ts with
  | nil => intro k _; simp; trivial
  | cons t ts ih =>
    intro k h
    cases k with
    | zero => exact h
    | succ k => exact ih k h.2.2.2

theorem leafCount_cons_cons (a b : List Nat) (l : List (List Nat)) :
    leafCount (a :: b :: l) = leafCount (b :: l) := by
  simp [leafCount, List.getLastD_eq_getLast?, List.getLast?_cons_cons]

theorem validNodes_tail (n0 n1 : List Nat) (rest : List (List Nat))
    (hv : ValidNodes (n0 :: n1 :: rest)) : ValidNodes (n1 :: rest) := by
  obtain ⟨_, hmem, hlink⟩ := hv
  refine ⟨by simp, fun l hl => hmem l (by simp [hl]), ?_⟩
  intro i hi
  have := hlink (i + 1) (by simp at hi ⊢; omega)
  simpa using this

theorem validNodes_chainTo :
    ∀ nodes : List (List Nat), ValidNodes nodes → ChainTo (leafCount nodes) nodes := by
  intro nodes
  induction nodes with
  | nil => intro hv; exact absurd rfl hv.1
  | cons n0 rest ih =>
    intro hv
    obtain ⟨_, hmem, hlink⟩ := hv
    obtain ⟨hne0, hpos0⟩ := hmem n0 (by simp)
    cases rest with
    | nil => exact ⟨hne0, hpos0, by simp [leafCount], trivial⟩
    | cons n1 rest' =>
      have hv' : ValidNodes (n1 :: rest') :=
        validNodes_tail n0 n1 rest' ⟨by simp, hmem, hlink⟩
      have htail := ih hv'
      rw [leafCount_cons_cons]
      refine ⟨hne0, hpos0, ?_, htail⟩
      have h0 := hlink 0 (by simp)
      simpa using h0

theorem summingMat_structure (nodes M : List (List Nat)) (hv : ValidNodes nodes)
    (hM : SummingMat nodes = some M) :
    M = List.replicate (leafCount nodes) 1 ::
      levStackB (leafCount nodes) (identityMat (leafCount nodes)) (nodes.drop 1) := by
  obtain ⟨n0, ts, rfl⟩ := List.exists_cons_of_ne_nil hv.1
  have hlast : (n0 :: ts).getLast? = some ((n0 :: ts).getLastD []) := by
    cases hl : (n0 :: ts).getLast? with
    | none => exact absurd (List.getLast?_eq_none_iff.mp hl) (by simp)
    | some x => rw [List.getLastD_eq_getLast?, hl]; rfl
  rw [SummingMat, hlast, Option.some_bind, Option.map_eq_some'] at hM
  obtain ⟨F, hF, hMF⟩ := hM
  have hchain : ChainTo (leafCount (n0 :: ts)) ts :=
    (validNodes_chainTo (n0 :: ts) hv).2.2.2
  have hok : chainOK ts.reverse (identityMat (leafCount (n0 :: ts))).length := by
    rw [identityMat_length]
    exact chainTo_chainOK _ ts hchain
  have hF' : smLoop (leafCount (n0 :: ts)) ts.reverse
      (identityMat (leafCount (n0 :: ts)))
      (identityMat (leafCount (n0 :: ts)), true) = some F := hF
  have hFeq := smLoop_eq (leafCount (n0 :: ts)) ts.reverse
    (identityMat (leafCount (n0 :: ts))) (identityMat (leafCount (n0 :: ts))) F
    hok (identityMat_good _) hF'
  have hstack := buildStack_levStackB (leafCount (n0 :: ts)) ts.reverse
    (identityMat (leafCount (n0 :: ts)))
  rw [List.reverse_reverse] at hstack
  rw [← hMF, hFeq, hstack]
  rfl

theorem levGroupB_cons_length (m : Nat) (bl : List (List Nat)) (t : List Nat)
    (ts : List (List Nat)) : (levGroupB m bl (t :: ts)).length = t.length := by
  rw [levGroupB, agg_length]

theorem levGroupB_rows_length (m : Nat) (bl : List (List Nat))
    (hbl : ∀ r ∈ bl, r.length = m) :
    ∀ ts, ∀ r ∈ levGroupB m bl ts, r.length = m := by
  intro ts
  induction ts with
  | nil => simpa [levGroupB] using hbl
  | cons t ts ih => rw [levGroupB]; exact agg_rows_length m t _ ih

theorem levGroupB_length_chain (m : Nat) (bl : List (List Nat))
    (hbl : bl.length = m) (t : List Nat) (ts : List (List Nat))
    (hchain : ChainTo m (t :: ts)) :
    t.sum = (levGroupB m bl ts).length := by
  cases ts with
  | nil => rw [levGroupB, hbl]; exact hchain.2.2.1
  | cons s ss => rw [levGroupB_cons_length]; exact hchain.2.2.1

theorem levGroupB_colSum (m : Nat) (bl : List (List Nat))
    (hbl : bl.length = m) (hrows : ∀ r ∈ bl, r.length = m) :
    ∀ ts, ChainTo m ts → colSum m (levGroupB m bl ts) = colSum m bl := by
  intro ts
  induction ts with
  | nil => intro _; rw [levGroupB]
  | cons t ts ih =>
    intro hchain
    rw [levGroupB, agg_colSum m t (levGroupB m bl ts)
      (levGroupB_length_chain m bl hbl t ts hchain)
      (levGroupB_rows_length m bl hrows ts), ih hchain.2.2.2]

theorem levStackB_drop (m : Nat) (bl : List (List Nat)) :
    ∀ (k : Nat) (ts : List (List Nat)),
      (levStackB m bl ts).drop (((ts.take k).map List.length).sum) =
        levStackB m bl (ts.drop k) := by
  intro k
  induction k with
  | zero => intro ts; simp
  | succ k ih =>
    intro ts
    cases ts with
    | nil => simp
    | cons t ts' =>
      have h1 : ((t :: ts').take (k + 1)).map List.length =
          t.length :: ((ts'.take k).map List.length) := by
        simp [List.take_succ_cons]
      rw [h1, List.sum_cons, levStackB, List.drop_append_eq_append_drop]
      have hlen : (levGroupB m bl (t :: ts')).length = t.length :=
        levGroupB_cons_length m bl t ts'
      have h3 : (levGroupB m bl (t :: ts')).drop
          (t.length + ((ts'.take k).map List.length).sum) = [] :=
        List.drop_eq_nil_of_le (by rw [hlen]; omega)
      have h4 : t.length + ((ts'.take k).map List.length).sum -
          (levGroupB m bl (t :: ts')).length = ((ts'.take k).map List.length).sum := by
        rw [hlen]; omega
      rw [h3, h4, List.nil_append, ih ts']
      rfl

theorem prefixSum_add_getD_le (t : List Nat) (j : Nat) (hj : j < t.length) :
    prefixSum t j + t.getD j 0 ≤ t.sum := by
  have hget : t.getD j 0 = t[j] := by
    rw [List.getD_eq_getElem?_getD, List.getElem?_eq_getElem hj]
    rfl
  have h1 : (t.take (j + 1)).sum = prefixSum t j + t[j] := by
    rw [prefixSum, List.take_succ, List.getElem?_eq_getElem hj, List.sum_append]
    simp
  have h2 : (t.take (j + 1)).sum ≤ t.sum := by
    conv_rhs => rw [← List.take_append_drop (j + 1) t]
    rw [List.sum_append]
    omega
  omega

theorem drop_take_append_left (A B : List (List Nat)) (o sz : Nat)
    (h : o + sz ≤ A.length) :
    ((A ++ B).drop o).take sz = (A.drop o).take sz := by
  rw [List.drop_append_eq_append_drop]
  have h0 : o - A.length = 0 := by omega
  rw [h0, List.drop_zero, List.take_append_eq_append_take]
  have h1 : sz - (A.drop o).length = 0 := by
    rw [List.length_drop]
    omega
  rw [h1, List.take_zero, List.append_nil]

theorem getD_drop {α : Type} (l : List α) (n j : Nat) (d : α) :
    (l.drop n).getD j d = l.getD (n + j) d := by
  rw [List.getD_eq_getElem?_getD, List.getD_eq_getElem?_getD, List.getElem?_drop]

theorem levStackB_prefix (m : Nat) (bl : List (List Nat)) (ts : List (List Nat)) :
    ∃ rest, levStackB m bl ts = levGroupB m bl ts ++ rest := by
  cases ts with
  | nil => exact ⟨[], by simp [levStackB, levGroupB]⟩
  | cons t ts' => exact ⟨levStackB m bl ts', rfl⟩

theorem levStackB_getD (m : Nat) (bl : List (List Nat)) (hblLen : bl.length = m)
    (ts : List (List Nat)) (i j : Nat) (hits : i < ts.length)
    (hchain : ChainTo m ts) (hj : j < ts[i].length) :
    (levStackB m bl ts).getD (((ts.take i).map List.length).sum + j) [] =
      colSum m (((levStackB m bl (ts.drop (i + 1))).drop (prefixSum ts[i] j)).take
        (ts[i].getD j 0)) := by
  rw [← getD_drop, levStackB_drop m bl i ts, List.drop_eq_getElem_cons hits, levStackB,
    List.getD_append _ _ _ j (by rw [levGroupB_cons_length]; exact hj), levGroupB,
    agg_getD m _ _ j hj]
  obtain ⟨r2, hr2⟩ := levStackB_prefix m bl (ts.drop (i + 1))
  have hchain' : ChainTo m (ts[i] :: ts.drop (i + 1)) := by
    rw [← List.drop_eq_getElem_cons hits]
    exact chainTo_drop m ts i hchain
  have hlen : ts[i].sum = (levGroupB m bl (ts.drop (i + 1))).length :=
    levGroupB_length_chain m bl hblLen _ _ hchain'
  have hbound : prefixSum ts[i] j + ts[i].getD j 0 ≤
      (levGroupB m bl (ts.drop (i + 1))).length := by
    have := prefixSum_add_getD_le ts[i] j hj
    omega
  rw [hr2, drop_take_append_left _ _ _ _ hbound]

theorem summingMat_parent_child (nodes M : List (List Nat))
    (hv : ValidNodes nodes) (hM : SummingMat nodes = some M) :
    ParentChildSum nodes M := by
  have hstruct := summingMat_structure nodes M hv hM
  obtain ⟨n0, ts, rfl⟩ := List.exists_cons_of_ne_nil hv.1
  have hchain : ChainTo (leafCount (n0 :: ts)) ts :=
    (validNodes_chainTo (n0 :: ts) hv).2.2.2
  unfold ParentChildSum
  rw [hstruct]
  constructor
  · -- the root row is the element-wise sum of the level-1 rows
    cases ts with
    | nil =>
      simp only [List.getD_cons_zero, List.headD_cons, List.drop_succ_cons,
        List.drop_zero, List.drop_nil]
      have hS : levStackB (leafCount [n0]) (identityMat (leafCount [n0])) [] =
          identityMat (leafCount [n0]) := rfl
      rw [hS]
      have h3 : (identityMat (leafCount [n0])).take n0.sum =
          identityMat (leafCount [n0]) :=
        List.take_of_length_le (by rw [identityMat_length]; exact le_of_eq rfl)
      rw [h3, colSum_identityMat]
    | cons t1 ts' =>
      simp only [List.getD_cons_zero, List.headD_cons, List.drop_succ_cons,
        List.drop_zero]
      have hlink : n0.sum = t1.length := by
        have h0 := hv.2.2 0 (by simp)
        simpa using h0
      have hSt : levStackB (leafCount (n0 :: t1 :: ts'))
          (identityMat (leafCount (n0 :: t1 :: ts'))) (t1 :: ts') =
          levGroupB (leafCount (n0 :: t1 :: ts'))
            (identityMat (leafCount (n0 :: t1 :: ts'))) (t1 :: ts') ++
          levStackB (leafCount (n0 :: t1 :: ts'))
            (identityMat (leafCount (n0 :: t1 :: ts'))) ts' := rfl
      rw [hSt, List.take_left' (by rw [levGroupB_cons_length]; omega),
        levGroupB_colSum _ _ (identityMat_length _) (identityMat_rows_length _)
          (t1 :: ts') hchain, colSum_identityMat]
  · -- every other non-leaf row is the element-wise sum of its children's rows
    intro i hi h1i j hj
    obtain ⟨i', rfl⟩ : ∃ i', i = i' + 1 := ⟨i - 1, by omega⟩
    have hits : i' < ts.length := by
      simp only [List.length_cons] at hi
      omega
    have hts : (n0 :: ts).getD (i' + 1) [] = ts[i'] := by
      rw [List.getD_cons_succ, List.getD_eq_getElem?_getD, List.getElem?_eq_getElem hits]
      rfl
    rw [hts] at hj ⊢
    have hdrop1 : (n0 :: ts).drop 1 = ts := rfl
    rw [hdrop1]
    have ho1 : rowStart (n0 :: ts) (i' + 1) = 1 + ((ts.take i').map List.length).sum := by
      simp [rowStart]
    have ho2 : rowStart (n0 :: ts) (i' + 1 + 1) =
        1 + ((ts.take (i' + 1)).map List.length).sum := by
      simp [rowStart]
    have hidx1 : rowStart (n0 :: ts) (i' + 1) + j =
        (((ts.take i').map List.length).sum + j) + 1 := by
      rw [ho1]; omega
    have hidx2 : rowStart (n0 :: ts) (i' + 1 + 1) + prefixSum ts[i'] j =
        (((ts.take (i' + 1)).map List.length).sum + prefixSum ts[i'] j) + 1 := by
      rw [ho2]; omega
    rw [hidx1, hidx2, List.getD_cons_succ]
    have hd2 : (List.replicate (leafCount (n0 :: ts)) 1 ::
        levStackB (leafCount (n0 :: ts)) (identityMat (leafCount (n0 :: ts))) ts).drop
          ((((ts.take (i' + 1)).map List.length).sum + prefixSum ts[i'] j) + 1) =
        (levStackB (leafCount (n0 :: ts)) (identityMat (leafCount (n0 :: ts))) ts).drop
          (((ts.take (i' + 1)).map List.length).sum + prefixSum ts[i'] j) := by
      rw [List.drop_succ_cons]
    rw [hd2, ← List.drop_drop, levStackB_drop]
    exact levStackB_getD (leafCount (n0 :: ts)) (identityMat (leafCount (n0 :: ts)))
      (identityMat_length _) ts i' j hits hchain hj

theorem foldl_qmin2_le_init (l : List ℚ) : ∀ acc : ℚ, l.foldl qmin2 acc ≤ acc := by
  induction l with
  | nil => intro acc; simp
  | cons a l ih =>
    intro acc
    have h1 := ih (qmin2 acc a)
    have h2 : qmin2 acc a ≤ acc := by
      unfold qmin2
      split
      · exact le_of_lt (by assumption)
      · exact le_refl acc
    rw [List.foldl_cons]
    exact le_trans h1 h2

theorem foldl_qmin2_le_mem (l : List ℚ) :
    ∀ (acc : ℚ) (x : ℚ), x ∈ l → l.foldl qmin2 acc ≤ x := by
  induction l with
  | nil => intro acc x hx; simp at hx
  | cons a l ih =>
    intro acc x hx
    rcases List.mem_cons.mp hx with rfl | hx
    · have h1 := foldl_qmin2_le_init l (qmin2 acc x)
      have h2 : qmin2 acc x ≤ x := by
        unfold qmin2
        split
        · exact le_refl x
        · exact le_of_not_lt (by assumption)
      rw [List.foldl_cons]
      exact le_trans h1 h2
    · rw [List.foldl_cons]
      exact ih (qmin2 acc a) x hx

theorem foldl_qmin2_mem (l : List ℚ) :
    ∀ acc : ℚ, l.foldl qmin2 acc ∈ acc :: l := by
  induction l with
  | nil => intro acc; simp
  | cons a l ih =>
    intro acc
    have h1 := ih (qmin2 acc a)
    have h2 : qmin2 acc a = acc ∨ qmin2 acc a = a := by
      unfold qmin2
      split
      · exact Or.inr rfl
      · exact Or.inl rfl
    rw [List.foldl_cons]
    rcases List.mem_cons.mp h1 with hh | hh
    · rw [hh]
      rcases h2 with h3 | h3
      · rw [h3]; exact List.mem_cons_self _ _
      · rw [h3]; exact List.mem_cons_of_mem _ (List.mem_cons_self _ _)
    · exact List.mem_cons_of_mem _ (List.mem_cons_of_mem _ hh)

theorem listMin_mem (l : List ℚ) (h : l ≠ []) : listMin l ∈ l := by
  obtain ⟨a, r, rfl⟩ := List.exists_cons_of_ne_nil h
  have := foldl_qmin2_mem r a
  rw [listMin]
  rcases List.mem_cons.mp this with hh | hh
  · simp [hh]
  · simp [List.mem_cons, hh]

theorem listMin_le (l : List ℚ) (x : ℚ) (hx : x ∈ l) : listMin l ≤ x := by
  obtain ⟨a, r, rfl⟩ := List.exists_cons_of_ne_nil (List.ne_nil_of_mem hx)
  rw [listMin]
  rcases List.mem_cons.mp hx with rfl | hh
  · exact foldl_qmin2_le_init r x
  · exact foldl_qmin2_le_mem r a x hh

theorem idxOfQ_lt_length (l : List ℚ) (x : ℚ) (hx : x ∈ l) :
    idxOfQ l x < l.length := by
  induction l with
  | nil => simp at hx
  | cons a r ih =>
    rw [idxOfQ]
    split
    · simp
    · rcases List.mem_cons.mp hx with rfl | hh
      · simp_all
      · have := ih hh
        simp only [List.length_cons]
        omega

theorem idxOfQ_getD (l : List ℚ) (x : ℚ) (hx : x ∈ l) :
    l.getD (idxOfQ l x) 0 = x := by
  induction l with
  | nil => simp at hx
  | cons a r ih =>
    rw [idxOfQ]
    split
    · simpa using (by assumption : a = x)
    · rcases List.mem_cons.mp hx with rfl | hh
      · simp_all
      · simpa using ih hh

theorem idxOfQ_first (l : List ℚ) (x : ℚ) :
    ∀ j, j < idxOfQ l x → l.getD j 0 ≠ x := by
  induction l with
  | nil => intro j hj; rw [idxOfQ] at hj; omega
  | cons a r ih =>
    intro j hj
    rw [idxOfQ] at hj
    by_cases ha : a = x
    · simp [ha] at hj
    · rw [if_neg ha] at hj
      cases j with
      | zero => simpa using ha
      | succ j =>
        rw [List.getD_cons_succ]
        exact ih j (by omega)

theorem getDQ_mem (l : List ℚ) (j : Nat) (h : j < l.length) : l.getD j 0 ∈ l := by
  rw [List.getD_eq_getElem?_getD, List.getElem?_eq_getElem h]
  exact List.getElem_mem h

/-- Claim C1: the claim states that for every non-empty topology descriptor
`SummingMat` returns a matrix of the stated shape.  The code violates this:
on the well-formed chain topology `[[1], [1], [1]]` (root with one child,
which has one child, which has one leaf) the second level iteration leaves
the aggregated block as a 1-D numpy vector (a single row never passed
through `np.vstack`), and the next iteration's 2-D slice
`blMat[count:num2sumInd, :]` raises `IndexError`; the embedding returns
`none` instead of the 4-row matrix the claim requires. -/
theorem summingMat_crashes_on_valid_chain :
    ValidNodes [[1], [1], [1]] ∧ SummingMat [[1], [1], [1]] = none := by decide

/-- Claim C2: `SummingMat [[2]]` is the stated 3-by-2 matrix and
`SummingMat [[2], [1, 2]]` is the stated 6-by-3 matrix (root row all ones,
level-1 rows `[1,0,0]` and `[0,1,1]`, leaf rows the identity). -/
theorem summingMat_concrete_scenarios :
    SummingMat [[2]] = some [[1, 1], [1, 0], [0, 1]] ∧
      SummingMat [[2], [1, 2]] =
        some [[1, 1, 1], [1, 0, 0], [0, 1, 1], [1, 0, 0], [0, 1, 0], [0, 0, 1]] := by
  constructor
  · decide
  · decide

/-- Claim C3: for every well-formed topology descriptor on which
`SummingMat` returns a matrix, every non-leaf row of that matrix (the root
row and every intermediate-level row) equals the element-wise sum of the
rows of that node's direct children. -/
theorem summingMat_parent_row_eq_children_sum (nodes M : List (List Nat))
    (hv : ValidNodes nodes) (hM : SummingMat nodes = some M) :
    ParentChildSum nodes M :=
  summingMat_parent_child nodes M hv hM

/-- Witness for C3 at the concrete topology `[[2], [1, 2]]`. -/
theorem summingMat_parent_row_eq_children_sum_witness :
    ParentChildSum [[2], [1, 2]]
      [[1, 1, 1], [1, 0, 0], [0, 1, 1], [1, 0, 0], [0, 1, 0], [0, 0, 1]] :=
  summingMat_parent_row_eq_children_sum [[2], [1, 2]]
    [[1, 1, 1], [1, 0, 0], [0, 1, 1], [1, 0, 0], [0, 1, 0], [0, 0, 1]]
    (by decide) (by decide)

/-- Counterexample to claim C4 as stated: when all five candidate methods
tie on average MASE, `choices.index(min(choices))` picks the first index of
`methodList = ['OC','FP','PHA','AHP','BU']`, so `hts` selects
optimal-combination ("OC"), not bottom-up ("BU") as the claim's priority
order requires. -/
theorem cvChoice_all_tie_selects_OC :
    cvChoice [1] [1] [1] [1] [1] = "OC" ∧ cvChoice [1] [1] [1] [1] [1] ≠ "BU" := by
  constructor
  · norm_num [cvChoice, cvChoices, qmean, listMin, qmin2, idxOfQ, methodList]
  · norm_num [cvChoice, cvChoices, qmean, listMin, qmin2, idxOfQ, methodList]
    decide

/-- Claim C4 (amended): in cvSelect mode the refit method is the one whose
average MASE is the first minimum of the five averages, taken in the
fixed order optimal-combination, top-down-forecast-proportions,
top-down-historical-average-proportions,
top-down-average-historical-proportions, bottom-up (`methodList =
['OC','FP','PHA','AHP','BU']`): its average never exceeds any candidate's
average, and every earlier method in that order has a strictly different
(hence larger) average. -/
theorem cvChoice_is_first_argmin (m1 m2 m3 m4 m5 : List ℚ) :
    ∃ i, i < 5 ∧ cvChoice m1 m2 m3 m4 m5 = methodList.getD i "" ∧
      (∀ j, j < 5 → (cvChoices m1 m2 m3 m4 m5).getD i 0 ≤
        (cvChoices m1 m2 m3 m4 m5).getD j 0) ∧
      ∀ j, j < i → (cvChoices m1 m2 m3 m4 m5).getD j 0 ≠
        (cvChoices m1 m2 m3 m4 m5).getD i 0 := by
  have hne : cvChoices m1 m2 m3 m4 m5 ≠ [] := by simp [cvChoices]
  have hlen : (cvChoices m1 m2 m3 m4 m5).length = 5 := rfl
  have hmin : listMin (cvChoices m1 m2 m3 m4 m5) ∈ cvChoices m1 m2 m3 m4 m5 :=
    listMin_mem _ hne
  refine ⟨idxOfQ (cvChoices m1 m2 m3 m4 m5) (listMin (cvChoices m1 m2 m3 m4 m5)),
    ?_, rfl, ?_, ?_⟩
  · rw [← hlen]
    exact idxOfQ_lt_length _ _ hmin
  · intro j hj
    rw [idxOfQ_getD _ _ hmin]
    exact listMin_le _ _ (getDQ_mem _ j (by omega))
  · intro j hj
    rw [idxOfQ_getD _ _ hmin]
    exact idxOfQ_first _ _ j hj

/-- Witness for C4 at concrete averages `[2], [1], [1], [3], [4]`: the
minimum average is attained first by FP (index 1). -/
theorem cvChoice_is_first_argmin_witness :
    ∃ i, i < 5 ∧ cvChoice [2] [1] [1] [3] [4] = methodList.getD i "" ∧
      (∀ j, j < 5 → (cvChoices [2] [1] [1] [3] [4]).getD i 0 ≤
        (cvChoices [2] [1] [1] [3] [4]).getD j 0) ∧
      ∀ j, j < i → (cvChoices [2] [1] [1] [3] [4]).getD j 0 ≠
        (cvChoices [2] [1] [1] [3] [4]).getD i 0 :=
  cvChoice_is_first_argmin [2] [1] [1] [3] [4]

/-- Claim C7: every misconfigured call of `hts` — horizon below 1, a method
name outside the six accepted ones, an empty nodes list, a nodes total
different from the column count minus 2, or a capacity DataFrame whose
column count is not the column count minus 1 — exits with a configuration
error before any `fitForecast` call, so no forecasting happens and no
partial output is produced. -/
theorem htsRun_misconfig_exits_before_backend (h : Int) (method : String)
    (nodes : List (List Nat)) (ycols : Nat) (cap capF : CapArg) (nFolds : Nat)
    (hbad : h < 1 ∨ ¬ method ∈ methodsAll ∨ nodes = [] ∨
      ((nodes.map List.sum).sum : Int) ≠ (ycols : Int) - 2 ∨
      capColsBad cap ycols = true ∨ capColsBad capF ycols = true) :
    ∃ e, htsRun h method nodes ycols cap capF nFolds = HtsResult.configError e := by
  have hcheck : htsCheck h method nodes ycols cap capF ≠ Option.none := by
    intro hnone
    unfold htsCheck at hnone
    split_ifs at hnone with h1 h2 h3 h4 h5 h6
    rcases hbad with hb | hb | hb | hb | hb | hb
    · exact h1 hb
    · exact hb h2
    · apply h3
      rw [hb]
      simp
    · exact h4 hb
    · rw [hb] at h5
      exact h5 rfl
    · rw [hb] at h6
      exact h6 rfl
  cases hc : htsCheck h method nodes ycols cap capF with
  | none => exact absurd hc hcheck
  | some e =>
    refine ⟨e, ?_⟩
    unfold htsRun
    rw [hc]

/-- Witness for C7: horizon 0 with an otherwise consistent configuration is
rejected before any backend call. -/
theorem htsRun_misconfig_exits_before_backend_witness :
    ∃ e, htsRun 0 "OC" [[2]] 4 CapArg.none CapArg.none 3 = HtsResult.configError e :=
  htsRun_misconfig_exits_before_backend 0 "OC" [[2]] 4 CapArg.none CapArg.none 3
    (Or.inl (by decide))

/-- Claim C9: the claim says any call of `orderHier` with two equal level
assignments exits with a configuration error before building anything, but
with `col1 = col2 = 1`, `col3 = 2` (a duplicate assignment) the broken
duplicate check `col1 == col2 | col1 == col3 | col2 == col3` — a chained
comparison over bitwise ors, since `|` binds tighter than `==` — evaluates
to `1 == (1|1) and (1|1) == (2|1) and ...`, whose second comparison
`1 == 3` is false, so no error is raised and construction proceeds. -/
theorem orderHier_duplicate_levels_not_rejected :
    orderHierCheck (some 1) (some 1) (some 2) (some 3) = OHOutcome.proceed := by
  decide

theorem sum_map_abs_zipWith :
    ∀ (f g : List ℚ) (n : Nat), f.length = n → g.length = n →
      ((List.zipWith (fun a b => a - b) f g).map (fun x => |x|)).sum =
        ∑ t ∈ Finset.range n, |f.getD t 0 - g.getD t 0| := by
  intro f
  induction f with
  | nil =>
    intro g n h1 _
    rw [← h1]
    simp
  | cons a f ih =>
    intro g n h1 h2
    cases g with
    | nil =>
      rw [← h1] at h2
      simp at h2
    | cons b g =>
      obtain ⟨n', rfl⟩ : ∃ n', n = n' + 1 := ⟨f.length, by simpa using h1.symm⟩
      simp only [List.zipWith_cons_cons, List.map_cons, List.sum_cons]
      rw [ih g n' (by simpa using h1) (by simpa using h2), Finset.sum_range_succ']
      simp only [List.getD_cons_succ, List.getD_cons_zero]
      exact add_comm _ _

/-- Claim C6: the MASE of a scored node equals the stated formula — the
absolute forecast errors over the test window divided by `n/(n-1)` times
the sum of the absolute first differences of the window's actuals — and at
actuals `[10,12,14,16]` with forecasts `[11,11,15,15]` it is exactly
`1/2`. -/
theorem mase_formula_and_scenario :
    (∀ fc ac : List ℚ, fc.length = ac.length →
      mase fc ac =
        (∑ t ∈ Finset.range ac.length, |fc.getD t 0 - ac.getD t 0|) /
          (((ac.length : ℚ) / ((ac.length : ℚ) - 1)) *
            ∑ t ∈ Finset.range (ac.length - 1), |ac.getD (t + 1) 0 - ac.getD t 0|)) ∧
      mase [11, 11, 15, 15] [10, 12, 14, 16] = 1 / 2 := by
  constructor
  · intro fc ac hlen
    have hslice : lastSlice fc ac.length = fc := by
      unfold lastSlice
      split
      · rfl
      · rw [hlen]
        simp
    unfold mase maseNum maseDen
    rw [hslice, sum_map_abs_zipWith fc ac ac.length hlen rfl,
      sum_map_abs_zipWith (ac.drop 1) ac.dropLast (ac.length - 1) (by simp) (by simp)]
    congr 2
    apply Finset.sum_congr rfl
    intro t ht
    rw [Finset.mem_range] at ht
    have e1 : (ac.drop 1).getD t 0 = ac.getD (t + 1) 0 := by
      rw [getD_drop]
      congr 1
      omega
    have e2 : ac.dropLast.getD t 0 = ac.getD t 0 := by
      have hlt1 : t < ac.dropLast.length := by
        simp only [List.length_dropLast]
        omega
      have hlt2 : t < ac.length := by omega
      rw [List.getD_eq_getElem?_getD, List.getD_eq_getElem?_getD,
        List.getElem?_eq_getElem hlt1, List.getElem?_eq_getElem hlt2]
      simp [List.getElem_dropLast]
    rw [e1, e2]
  · norm_num [mase, maseNum, maseDen, lastSlice, List.dropLast]

/-- Witness for C6: the formula conjunct instantiated at the concrete
scenario window. -/
theorem mase_formula_and_scenario_witness :
    mase [11, 11, 15, 15] [10, 12, 14, 16] =
      (∑ t ∈ Finset.range ([(10 : ℚ), 12, 14, 16] : List ℚ).length,
        |([(11 : ℚ), 11, 15, 15] : List ℚ).getD t 0 -
          ([(10 : ℚ), 12, 14, 16] : List ℚ).getD t 0|) /
        (((([(10 : ℚ), 12, 14, 16] : List ℚ).length : ℚ) /
            ((([(10 : ℚ), 12, 14, 16] : List ℚ).length : ℚ) - 1)) *
          ∑ t ∈ Finset.range (([(10 : ℚ), 12, 14, 16] : List ℚ).length - 1),
            |([(10 : ℚ), 12, 14, 16] : List ℚ).getD (t + 1) 0 -
              ([(10 : ℚ), 12, 14, 16] : List ℚ).getD t 0|) :=
  mase_formula_and_scenario.1 [11, 11, 15, 15] [10, 12, 14, 16] rfl

theorem foldScores_length (cols : List (List ℚ)) (fc : Nat → List ℚ)
    (t : List Nat) : (foldScores cols fc t).length = cols.length - 1 := by
  simp [foldScores, fcKeys]

theorem foldScores_getD (cols : List (List ℚ)) (fc : Nat → List ℚ) (t : List Nat)
    (k : Nat) (hk : k < cols.length - 1) :
    (foldScores cols fc t).getD k 0 = mase (fc k) (gather (cols.getD (k + 1) []) t) := by
  have hlen : k < (foldScores cols fc t).length := by
    rw [foldScores_length]
    omega
  rw [List.getD_eq_getElem?_getD, List.getElem?_eq_getElem hlen]
  simp [foldScores, fcKeys]

theorem cvMASEAux_length (cols : List (List ℚ)) (oracle : Nat → Nat → List ℚ) :
    ∀ (folds : List (List Nat)) (f0 : Nat),
      (cvMASEAux cols oracle folds f0).length = folds.length * (cols.length - 1) := by
  intro folds
  induction folds with
  | nil => intro f0; simp [cvMASEAux]
  | cons t ts ih =>
    intro f0
    rw [cvMASEAux, List.length_append, foldScores_length, ih (f0 + 1)]
    simp [Nat.succ_mul]
    omega

theorem cvMASEAux_getD (cols : List (List ℚ)) (oracle : Nat → Nat → List ℚ) :
    ∀ (folds : List (List Nat)) (f0 fi k : Nat), fi < folds.length →
      k < cols.length - 1 →
      (cvMASEAux cols oracle folds f0).getD (fi * (cols.length - 1) + k) 0 =
        mase (oracle (f0 + fi) k) (gather (cols.getD (k + 1) []) (folds.getD fi [])) := by
  intro folds
  induction folds with
  | nil => intro f0 fi k hfi _; simp at hfi
  | cons t ts ih =>
    intro f0 fi k hfi hk
    cases fi with
    | zero =>
      rw [cvMASEAux, Nat.zero_mul, Nat.zero_add,
        List.getD_append _ _ _ k (by rw [foldScores_length]; omega),
        foldScores_getD cols (oracle f0) t k hk]
      simp
    | succ fi =>
      have hge : (foldScores cols (oracle f0) t).length ≤ (fi + 1) * (cols.length - 1) + k := by
        rw [foldScores_length, Nat.succ_mul]
        omega
      rw [cvMASEAux, List.getD_append_right _ _ _ _ hge, foldScores_length]
      have harith : (fi + 1) * (cols.length - 1) + k - (cols.length - 1) =
          fi * (cols.length - 1) + k := by
        rw [Nat.succ_mul]
        omega
      rw [harith, ih (f0 + 1) fi k (by simpa using hfi) hk]
      have : f0 + 1 + fi = f0 + (fi + 1) := by omega
      rw [this]
      simp

/-- Counterexample to claim C5 as stated: with topology `[[2]]` (a wide
table of 4 columns: time, total, and 2 leaves) one fold accumulates 3 MASE
values per method — one per non-time column — not one per leaf (2), and the
scored wide-table columns are `[1, 2, 3]`, which include column 1, the
total, and are not only the leaf columns `[2, 3]`. -/
theorem cvSelect_scores_nonleaf_columns :
    (cvMASE [[(1 : ℚ)], [2], [3], [4]] (fun _ _ => [2]) [[0]]).length = 3 ∧
      leafCount [[2]] = 2 ∧ (3 : Nat) ≠ 2 ∧
      scoredCols 4 = [1, 2, 3] ∧ (1 : Nat) ∈ scoredCols 4 ∧
      scoredCols 4 ≠ [2, 3] := by
  refine ⟨?_, by decide, by decide, by decide, by decide, by decide⟩
  have h := cvMASEAux_length [[(1 : ℚ)], [2], [3], [4]] (fun _ _ => [2]) [[0]] 0
  simpa using h

/-- Claim C5 (amended): in cvSelect mode each fold appends, for each
candidate method, exactly one MASE value per key of the forecast mapping —
one per node, covering the total and every intermediate aggregate as well
as the leaves, with key `k` scored against wide-table column `k + 1` — and
the method's selection score is the average over all folds and all nodes
of these values. -/
theorem cvSelect_scores_every_node (cols : List (List ℚ))
    (oracle : Nat → Nat → List ℚ) (folds : List (List Nat)) :
    (cvMASE cols oracle folds).length = folds.length * (cols.length - 1) ∧
      qmean (cvMASE cols oracle folds) =
        (cvMASE cols oracle folds).sum / ((cvMASE cols oracle folds).length : ℚ) ∧
      ∀ fi k, fi < folds.length → k < cols.length - 1 →
        (cvMASE cols oracle folds).getD (fi * (cols.length - 1) + k) 0 =
          mase (oracle fi k) (gather (cols.getD (k + 1) []) (folds.getD fi [])) := by
  refine ⟨cvMASEAux_length cols oracle folds 0, rfl, ?_⟩
  intro fi k hfi hk
  have h := cvMASEAux_getD cols oracle folds 0 fi k hfi hk
  simpa using h

/-- Witness for C5 at a concrete 4-column wide table with a single
one-point fold: entry `(0, 0)` of the accumulation list is the MASE of
key 0 against column 1. -/
theorem cvSelect_scores_every_node_witness :
    (cvMASE [[(1 : ℚ)], [2], [3], [4]] (fun _ _ => [2]) [[0]]).getD 0 0 =
      mase [2] (gather [2] [0]) :=
  (cvSelect_scores_every_node [[(1 : ℚ)], [2], [3], [4]] (fun _ _ => [2]) [[0]]).2.2
    0 0 (by decide) (by decide)

theorem countC_append (a b : List Char) (c : Char) :
    countC (a ++ b) c = countC a c + countC b c := by
  induction a with
  | nil => simp [countC]
  | cons x a ih => simp [countC, ih]; omega

theorem countC_uscJoin (p v : List Char) :
    countC (uscJoin p v) '_' = countC p '_' + 1 + countC v '_' := by
  rw [uscJoin, countC_append, countC]
  simp
  omega

theorem dfsFrom_depth_lt :
    ∀ (rest : List (List (List Char))) (p : List Char),
      ∀ s ∈ dfsFrom p rest, countC p '_' < countC s '_' := by
  intro rest
  induction rest with
  | nil => intro p s hs; simp [dfsFrom] at hs
  | cons u us ih =>
    intro p s hs
    rw [dfsFrom, List.mem_flatMap] at hs
    obtain ⟨v, _, hs⟩ := hs
    rcases List.mem_cons.mp hs with rfl | hs
    · rw [countC_uscJoin]
      omega
    · have h1 := ih (uscJoin p v) s hs
      rw [countC_uscJoin] at h1
      omega

theorem extendNames_flatMap_single (ps : List (List Char)) (u : List (List Char)) :
    extendNames ps u = ps.flatMap (fun q => extendNames [q] u) := by
  unfold extendNames
  refine List.flatMap_congr ?_  -- pointwise
  intro q _
  simp

theorem levelsAux_getD_flatMap :
    ∀ (us : List (List (List Char))) (ps : List (List Char)) (k : Nat),
      (levelsAux ps us).getD k [] = ps.flatMap (fun q => (levelsAux [q] us).getD k []) := by
  intro us
  induction us with
  | nil =>
    intro ps k
    simp [levelsAux]
  | cons u us ih =>
    intro ps k
    cases k with
    | zero =>
      rw [levelsAux]
      simp only [List.getD_cons_zero]
      have h1 : (fun q => (levelsAux [q] (u :: us)).getD 0 []) =
          (fun q => extendNames [q] u) := by
        funext q
        rw [levelsAux]
        simp
      rw [h1]
      exact extendNames_flatMap_single ps u
    | succ k =>
      rw [levelsAux]
      simp only [List.getD_cons_succ]
      rw [ih (extendNames ps u) k, extendNames_flatMap_single ps u, List.flatMap_assoc]
      refine List.flatMap_congr ?_
      intro q _
      rw [← ih (extendNames [q] u) k]
      have h2 : levelsAux [q] (u :: us) =
          extendNames [q] u :: levelsAux (extendNames [q] u) us := rfl
      rw [h2]
      simp

theorem dfsFrom_filter_level :
    ∀ (rest : List (List (List Char))) (p : List Char) (k : Nat),
      (∀ u ∈ rest, ∀ v ∈ u, countC v '_' = 0) →
      (dfsFrom p rest).filter (fun c => countC c '_' == countC p '_' + 1 + k) =
        (levelsAux [p] rest).getD k [] := by
  intro rest
  induction rest with
  | nil => intro p k _; simp [dfsFrom, levelsAux]
  | cons u us ih =>
    intro p k h0
    have h0u : ∀ v ∈ u, countC v '_' = 0 := h0 u (by simp)
    have h0us : ∀ u' ∈ us, ∀ v ∈ u', countC v '_' = 0 :=
      fun u' hu' => h0 u' (by simp [hu'])
    rw [dfsFrom, List.filter_flatMap]
    cases k with
    | zero =>
      have hper : ∀ v ∈ u,
          (uscJoin p v :: dfsFrom (uscJoin p v) us).filter
            (fun c => countC c '_' == countC p '_' + 1 + 0) = [uscJoin p v] := by
        intro v hv
        rw [List.filter_cons]
        have hd : countC (uscJoin p v) '_' = countC p '_' + 1 := by
          rw [countC_uscJoin, h0u v hv]
        have hdt : (countC (uscJoin p v) '_' == countC p '_' + 1 + 0) = true := by
          simp [hd]
        rw [if_pos hdt]
        have hnil : (dfsFrom (uscJoin p v) us).filter
            (fun c => countC c '_' == countC p '_' + 1 + 0) = [] := by
          rw [List.filter_eq_nil_iff]
          intro s hs
          have := dfsFrom_depth_lt us (uscJoin p v) s hs
          rw [hd] at this
          simp
          omega
        rw [hnil]
      have h1 : levelsAux [p] (u :: us) =
          extendNames [p] u :: levelsAux (extendNames [p] u) us := rfl
      rw [h1]
      simp only [List.getD_cons_zero]
      rw [List.flatMap_congr hper]
      have h2 : extendNames [p] u = u.map (fun v => uscJoin p v) := by
        simp [extendNames]
      rw [h2, ← List.map_eq_flatMap]
    | succ k =>
      have hper : ∀ v ∈ u,
          (uscJoin p v :: dfsFrom (uscJoin p v) us).filter
            (fun c => countC c '_' == countC p '_' + 1 + (k + 1)) =
            (levelsAux [uscJoin p v] us).getD k [] := by
        intro v hv
        rw [List.filter_cons]
        have hd : countC (uscJoin p v) '_' = countC p '_' + 1 := by
          rw [countC_uscJoin, h0u v hv]
        have hdt : (countC (uscJoin p v) '_' == countC p '_' + 1 + (k + 1)) = false := by
          simp [hd]
        rw [if_neg (by simp [hdt])]
        have hrec := ih (uscJoin p v) k h0us
        rw [hd] at hrec
        have harith : countC p '_' + 1 + 1 + k = countC p '_' + 1 + (k + 1) := by omega
        rw [harith] at hrec
        exact hrec
      rw [List.flatMap_congr hper]
      have h1 : levelsAux [p] (u :: us) =
          extendNames [p] u :: levelsAux (extendNames [p] u) us := rfl
      rw [h1]
      simp only [List.getD_cons_succ]
      rw [levelsAux_getD_flatMap us (extendNames [p] u) k]
      have h2 : extendNames [p] u = u.map (fun v => uscJoin p v) := by
        simp [extendNames]
      rw [h2, List.flatMap_map]

theorem bucket_mergeCols_zero (u : List (List Char)) (us : List (List (List Char)))
    (h0 : ∀ w ∈ u :: us, ∀ v ∈ w, countC v '_' = 0) :
    bucket (mergeCols (u :: us)) 0 = timeName :: totalName :: u := by
  have h0u : ∀ v ∈ u, countC v '_' = 0 := h0 u (by simp)
  unfold bucket mergeCols
  rw [List.filter_cons, List.filter_cons]
  have ht : (countC timeName '_' == 0) = true := by decide
  have hT : (countC totalName '_' == 0) = true := by decide
  rw [if_pos ht, if_pos hT]
  have h1 : (mergeNames (u :: us)).filter (fun c => countC c '_' == 0) = u := by
    rw [mergeNames, List.filter_flatMap]
    have hper : ∀ v ∈ u,
        (v :: dfsFrom v us).filter (fun c => countC c '_' == 0) = [v] := by
      intro v hv
      rw [List.filter_cons, if_pos (by simp [h0u v hv])]
      have hnil : (dfsFrom v us).filter (fun c => countC c '_' == 0) = [] := by
        rw [List.filter_eq_nil_iff]
        intro s hs
        have := dfsFrom_depth_lt us v s hs
        simp only [beq_iff_eq]
        omega
      rw [hnil]
    rw [List.flatMap_congr hper]
    simp
  rw [h1]

theorem bucket_mergeCols_succ (u : List (List Char)) (us : List (List (List Char)))
    (k : Nat) (h0 : ∀ w ∈ u :: us, ∀ v ∈ w, countC v '_' = 0) :
    bucket (mergeCols (u :: us)) (k + 1) = (levelLists (u :: us)).getD (k + 1) [] := by
  have h0u : ∀ v ∈ u, countC v '_' = 0 := h0 u (by simp)
  have h0us : ∀ w ∈ us, ∀ v ∈ w, countC v '_' = 0 := fun w hw => h0 w (by simp [hw])
  unfold bucket mergeCols
  rw [List.filter_cons, List.filter_cons]
  have ht : (countC timeName '_' == k + 1) = false := by
    simp [timeName, countC]
  have hT : (countC totalName '_' == k + 1) = false := by
    simp [totalName, countC]
  rw [if_neg (by simp [ht]), if_neg (by simp [hT])]
  rw [mergeNames, List.filter_flatMap]
  have hper : ∀ v ∈ u,
      (v :: dfsFrom v us).filter (fun c => countC c '_' == k + 1) =
        (levelsAux [v] us).getD k [] := by
    intro v hv
    rw [List.filter_cons, if_neg (by simp [h0u v hv])]
    have hpred : (fun c => countC c '_' == k + 1) =
        (fun c => countC c '_' == countC v '_' + 1 + k) := by
      funext c
      rw [h0u v hv]
      have : k + 1 = 0 + 1 + k := by omega
      rw [this]
    rw [hpred]
    exact dfsFrom_filter_level us v k h0us
  rw [List.flatMap_congr hper]
  have h2 : levelLists (u :: us) = u :: levelsAux u us := rfl
  rw [h2, List.getD_cons_succ, levelsAux_getD_flatMap us u k]

theorem dfsFrom_depth_le :
    ∀ (rest : List (List (List Char))) (p : List Char),
      (∀ w ∈ rest, ∀ v ∈ w, countC v '_' = 0) →
      ∀ s ∈ dfsFrom p rest, countC s '_' ≤ countC p '_' + rest.length := by
  intro rest
  induction rest with
  | nil => intro p _ s hs; simp [dfsFrom] at hs
  | cons u us ih =>
    intro p h0 s hs
    have h0u : ∀ v ∈ u, countC v '_' = 0 := h0 u (by simp)
    have h0us : ∀ w ∈ us, ∀ v ∈ w, countC v '_' = 0 := fun w hw => h0 w (by simp [hw])
    rw [dfsFrom, List.mem_flatMap] at hs
    obtain ⟨v, hv, hs⟩ := hs
    rcases List.mem_cons.mp hs with rfl | hs
    · rw [countC_uscJoin, h0u v hv]
      simp only [List.length_cons]
      omega
    · have h1 := ih (uscJoin p v) h0us s hs
      rw [countC_uscJoin, h0u v hv] at h1
      simp only [List.length_cons]
      omega

theorem mergeCols_depth_lt (uniqs : List (List (List Char)))
    (hlen : uniqs.length ≤ 4) (h0 : ∀ w ∈ uniqs, ∀ v ∈ w, countC v '_' = 0) :
    ∀ c ∈ mergeCols uniqs, countC c '_' < 4 := by
  intro c hc
  unfold mergeCols at hc
  rcases List.mem_cons.mp hc with rfl | hc
  · decide
  rcases List.mem_cons.mp hc with rfl | hc
  · decide
  cases uniqs with
  | nil => simp [mergeNames] at hc
  | cons u us =>
    rw [mergeNames, List.mem_flatMap] at hc
    obtain ⟨v, hv, hc⟩ := hc
    have h0u : ∀ x ∈ u, countC x '_' = 0 := h0 u (by simp)
    rcases List.mem_cons.mp hc with rfl | hc
    · rw [h0u _ hv]
      omega
    · have h1 := dfsFrom_depth_le us v (fun w hw => h0 w (by simp [hw])) c hc
      rw [h0u v hv] at h1
      simp only [List.length_cons] at hlen
      omega

theorem bucket_partition_length (cols : List (List Char))
    (h : ∀ c ∈ cols, countC c '_' < 4) :
    (bucket cols 0).length + (bucket cols 1).length + (bucket cols 2).length +
      (bucket cols 3).length = cols.length := by
  induction cols with
  | nil => simp [bucket]
  | cons c cols ih =>
    have hc := h c (by simp)
    have ihh := ih (fun x hx => h x (by simp [hx]))
    unfold bucket at ihh ⊢
    rw [List.filter_cons, List.filter_cons, List.filter_cons, List.filter_cons]
    rcases (by omega : countC c '_' = 0 ∨ countC c '_' = 1 ∨ countC c '_' = 2 ∨
        countC c '_' = 3) with h0 | h0 | h0 | h0 <;>
      simp [h0] <;> omega

theorem map_range'_getD_segment {β : Type} (F : List Char → β) :
    ∀ (L2 L1 rest : List (List Char)),
      (List.range' L1.length L2.length).map
        (fun pos => F ((L1 ++ (L2 ++ rest)).getD pos [])) = L2.map F := by
  intro L2
  induction L2 with
  | nil => intro L1 rest; simp
  | cons x L2 ih =>
    intro L1 rest
    rw [List.length_cons, List.range'_succ, List.map_cons, List.map_cons]
    congr 1
    · congr 1
      rw [List.getD_append_right _ _ _ _ (le_refl _)]
      simp
    · have h1 : L1 ++ (x :: L2 ++ rest) = (L1 ++ [x]) ++ (L2 ++ rest) := by
        simp
      have h2 : L1.length + 1 = (L1 ++ [x]).length := by simp
      rw [h1, h2, ih (L1 ++ [x]) rest]

theorem slice_middle (L1 L2 rest : List (List Char)) :
    ((L1 ++ (L2 ++ rest)).drop L1.length).take L2.length = L2 := by
  rw [List.drop_left, List.take_left]

theorem sum_map_ite_eq_countP (l : List (List Char)) (P : List Char → Prop)
    [DecidablePred P] :
    (l.map (fun s => if P s then 1 else 0)).sum = l.countP (fun s => decide (P s)) := by
  induction l with
  | nil => simp
  | cons a l ih =>
    rw [List.map_cons, List.sum_cons, List.countP_cons, ih]
    by_cases h : P a <;> simp [h]
    omega

theorem countP_flatMap_single (P : List (List Char))
    (f : List Char → List (List Char)) (pred : List Char → Bool) (p : List Char) :
    p ∈ P →
    List.Pairwise (fun a b => ∀ y, y ∈ f a → y ∈ f b → False) P →
    (∀ y, pred y = true → y ∈ f p) → (∀ y ∈ f p, pred y = true) →
    List.countP pred (P.flatMap f) = (f p).length := by
  intro hp hpw himp hall
  induction P with
  | nil => simp at hp
  | cons q P ih =>
    rw [List.flatMap_cons, List.countP_append]
    rcases List.mem_cons.mp hp with rfl | hp'
    · have h1 : List.countP pred (f p) = (f p).length :=
        List.countP_eq_length.mpr hall
      have h2 : List.countP pred (P.flatMap f) = 0 := by
        rw [List.countP_eq_zero]
        intro y hy hpred
        rw [List.mem_flatMap] at hy
        obtain ⟨r, hr, hy'⟩ := hy
        exact (List.pairwise_cons.mp hpw).1 r hr y (himp y hpred) hy'
      rw [h1, h2]
      omega
    · have h2 : List.countP pred (f q) = 0 := by
        rw [List.countP_eq_zero]
        intro y hy hpred
        exact (List.pairwise_cons.mp hpw).1 p hp' y hy (himp y hpred)
      rw [h2, ih hp' (List.pairwise_cons.mp hpw).2]
      omega

theorem level_entry (P vals : List (List Char)) (p : List Char) (hp : p ∈ P)
    (hnd : (extendNames P vals).Nodup)
    (hcf : ∀ s ∈ extendNames P vals,
      strCount s p = if childOf vals p s then 1 else 0) :
    ((extendNames P vals).map (fun i => strCount i p)).sum = vals.length := by
  have h1 : (extendNames P vals).map (fun i => strCount i p) =
      (extendNames P vals).map (fun s => if childOf vals p s then 1 else 0) :=
    List.map_congr_left hcf
  rw [h1, sum_map_ite_eq_countP]
  have hpw : List.Pairwise
      (fun a b => ∀ y, y ∈ vals.map (fun v => uscJoin a v) →
        y ∈ vals.map (fun v => uscJoin b v) → False) P := by
    have h2 := (List.nodup_flatMap.mp hnd).2
    refine h2.imp ?_
    intro a b hab y hy1 hy2
    exact hab hy1 hy2
  have himp : ∀ y, (fun s => decide (childOf vals p s)) y = true →
      y ∈ vals.map (fun v => uscJoin p v) := by
    intro y hy
    obtain ⟨v, hv, rfl⟩ := of_decide_eq_true hy
    exact List.mem_map.mpr ⟨v, hv, rfl⟩
  have hall : ∀ y ∈ vals.map (fun v => uscJoin p v),
      (fun s => decide (childOf vals p s)) y = true := by
    intro y hy
    rw [List.mem_map] at hy
    obtain ⟨v, hv, rfl⟩ := hy
    exact decide_eq_true ⟨v, hv, rfl⟩
  have hkey := countP_flatMap_single P (fun q => vals.map (fun v => uscJoin q v))
    (fun s => decide (childOf vals p s)) p hp hpw himp hall
  have hext : extendNames P vals =
      P.flatMap (fun q => vals.map (fun v => uscJoin q v)) := rfl
  rw [hext, hkey, List.length_map]

theorem level_block (P vals : List (List Char))
    (hnd : (extendNames P vals).Nodup)
    (hcf : ∀ p ∈ P, ∀ s ∈ extendNames P vals,
      strCount s p = if childOf vals p s then 1 else 0) :
    P.map (fun p => ((extendNames P vals).map (fun i => strCount i p)).sum) =
      List.replicate P.length vals.length := by
  have h1 : ∀ p ∈ P,
      ((extendNames P vals).map (fun i => strCount i p)).sum = vals.length :=
    fun p hp => level_entry P vals p hp hnd (hcf p hp)
  calc P.map (fun p => ((extendNames P vals).map (fun i => strCount i p)).sum)
      = P.map (fun _ => vals.length) := List.map_congr_left h1
    _ = List.replicate P.length vals.length := List.map_const' P vals.length

theorem extendNames_length (P vals : List (List Char)) :
    (extendNames P vals).length = P.length * vals.length := by
  induction P with
  | nil => simp [extendNames]
  | cons q P ih =>
    have h1 : extendNames (q :: P) vals =
        vals.map (fun v => uscJoin q v) ++ extendNames P vals := rfl
    rw [h1, List.length_append, List.length_map, ih, List.length_cons]
    ring

theorem block_eval (start len : Nat) (L1 P rest vals : List (List Char))
    (hstart : start = L1.length) (hlen : len = P.length)
    (hnd : (extendNames P vals).Nodup)
    (hcf : ∀ p ∈ P, ∀ s ∈ extendNames P vals,
      strCount s p = if childOf vals p s then 1 else 0) :
    (List.range' start len).map (fun pos =>
      ((extendNames P vals).map
        (fun i => strCount i ((L1 ++ (P ++ rest)).getD pos []))).sum) =
      List.replicate len vals.length := by
  subst hstart hlen
  rw [map_range'_getD_segment
    (fun par => ((extendNames P vals).map (fun i => strCount i par)).sum) P L1 rest]
  exact level_block P vals hnd hcf

theorem orderHierNodes_buckets (uniqs : List (List (List Char)))
    (B0 B1 B2 B3 : List (List Char))
    (h0 : bucket (mergeCols uniqs) 0 = B0) (h1 : bucket (mergeCols uniqs) 1 = B1)
    (h2 : bucket (mergeCols uniqs) 2 = B2) (h3 : bucket (mergeCols uniqs) 3 = B3) :
    orderHierNodes uniqs =
      [[B0.length - 2]] ++
        (if 1 < uniqs.length then
          [(List.range' 2 (B0.length - 2)).map (fun pos =>
            ((((B0 ++ B1 ++ B2 ++ B3).drop B0.length).take B1.length).map
              (fun i => strCount i ((B0 ++ B1 ++ B2 ++ B3).getD pos []))).sum)]
         else []) ++
        (if 2 < uniqs.length then
          [(List.range' B0.length B1.length).map (fun pos =>
            ((((B0 ++ B1 ++ B2 ++ B3).drop (B0.length + B1.length)).take B2.length).map
              (fun i => strCount i ((B0 ++ B1 ++ B2 ++ B3).getD pos []))).sum)]
         else []) ++
        (if 3 < uniqs.length then
          [(List.range' (B0.length + B1.length) B2.length).map (fun pos =>
            ((((B0 ++ B1 ++ B2 ++ B3).drop
                (B0.length + B1.length + B2.length)).take B3.length).map
              (fun i => strCount i ((B0 ++ B1 ++ B2 ++ B3).getD pos []))).sum)]
         else []) := by
  rw [← h0, ← h1, ← h2, ← h3]
  rfl

/-- Claim C10: the per-node MASE division in the cvSelect path is
unguarded: the validation block accepts a cvSelect configuration while the
MASE divisor evaluates to zero both for a one-point test window (where
`n/(n-1)` is a division by zero) and for a window with constant actuals
(where the first-difference sum is zero); no check rejects either case
before the division. -/
theorem mase_division_by_zero_unguarded :
    htsCheck 1 "cvSelect" [[2]] 4 CapArg.none CapArg.none = Option.none ∧
      maseDen [(5 : ℚ)] = 0 ∧ maseDen [(3 : ℚ), 3, 3] = 0 := by
  refine ⟨by decide, ?_, ?_⟩
  · norm_num [maseDen]
  · norm_num [maseDen, List.dropLast]

theorem slice_first {α : Type} (A B C D : List α) :
    ((A ++ B ++ C ++ D).drop A.length).take B.length = B := by
  rw [List.append_assoc, List.append_assoc, List.drop_left, List.take_left]

theorem slice_second {α : Type} (A B C D : List α) :
    ((A ++ B ++ C ++ D).drop (A.length + B.length)).take C.length = C := by
  have h : A.length + B.length = (A ++ B).length := (List.length_append _ _).symm
  rw [h, List.append_assoc, List.drop_left, List.take_left]

theorem slice_third {α : Type} (A B C D : List α) :
    ((A ++ B ++ C ++ D).drop (A.length + B.length + C.length)).take D.length = D := by
  have h : A.length + B.length + C.length = (A ++ B ++ C).length := by
    simp [List.length_append]
    omega
  rw [h, List.drop_left, List.take_length]

theorem ohNodes_case1 (u1 : List (List Char))
    (h0 : ∀ u ∈ [u1], ∀ v ∈ u, countC v '_' = 0) :
    orderHierNodes [u1] = idealNodes [u1] ∧
      ((orderHierNodes [u1]).map List.sum).sum = (mergeCols [u1]).length - 2 := by
  have hb0 : bucket (mergeCols [u1]) 0 = timeName :: totalName :: u1 :=
    bucket_mergeCols_zero u1 [] h0
  have hb1 : bucket (mergeCols [u1]) 1 = ([] : List (List Char)) := by
    have h := bucket_mergeCols_succ u1 [] 0 h0
    exact h
  have hb2 : bucket (mergeCols [u1]) 2 = ([] : List (List Char)) := by
    have h := bucket_mergeCols_succ u1 [] 1 h0
    exact h
  have hb3 : bucket (mergeCols [u1]) 3 = ([] : List (List Char)) := by
    have h := bucket_mergeCols_succ u1 [] 2 h0
    exact h
  have hhead : (timeName :: totalName :: u1).length - 2 = u1.length := by
    simp only [List.length_cons]
    omega
  have heq : orderHierNodes [u1] = idealNodes [u1] := by
    rw [orderHierNodes_buckets [u1] _ _ _ _ hb0 hb1 hb2 hb3]
    rw [if_neg (by simp : ¬ 1 < ([u1] : List (List (List Char))).length),
      if_neg (by simp : ¬ 2 < ([u1] : List (List (List Char))).length),
      if_neg (by simp : ¬ 3 < ([u1] : List (List (List Char))).length)]
    rw [hhead]
    rfl
  refine ⟨heq, ?_⟩
  rw [heq]
  have hpart := bucket_partition_length (mergeCols [u1])
    (mergeCols_depth_lt [u1] (by simp) h0)
  rw [hb0, hb1, hb2, hb3] at hpart
  simp only [List.length_cons, List.length_nil] at hpart
  simp only [idealNodes, idealAux, List.map_cons, List.map_nil, List.sum_cons,
    List.sum_nil]
  omega


theorem ohNodes_case2 (u1 u2 : List (List Char))
    (h0 : ∀ u ∈ [u1, u2], ∀ v ∈ u, countC v '_' = 0)
    (hnd1 : (extendNames u1 u2).Nodup)
    (hcf1 : ∀ p ∈ u1, ∀ s ∈ extendNames u1 u2,
      strCount s p = if childOf u2 p s then 1 else 0) :
    orderHierNodes [u1, u2] = idealNodes [u1, u2] ∧
      ((orderHierNodes [u1, u2]).map List.sum).sum = (mergeCols [u1, u2]).length - 2 := by
  have hb0 : bucket (mergeCols [u1, u2]) 0 = timeName :: totalName :: u1 :=
    bucket_mergeCols_zero u1 [u2] h0
  have hb1 : bucket (mergeCols [u1, u2]) 1 = extendNames u1 u2 := by
    have h := bucket_mergeCols_succ u1 [u2] 0 h0
    exact h
  have hb2 : bucket (mergeCols [u1, u2]) 2 = ([] : List (List Char)) := by
    have h := bucket_mergeCols_succ u1 [u2] 1 h0
    exact h
  have hb3 : bucket (mergeCols [u1, u2]) 3 = ([] : List (List Char)) := by
    have h := bucket_mergeCols_succ u1 [u2] 2 h0
    exact h
  have hhead : (timeName :: totalName :: u1).length - 2 = u1.length := by
    simp only [List.length_cons]
    omega
  have heq : orderHierNodes [u1, u2] = idealNodes [u1, u2] := by
    rw [orderHierNodes_buckets [u1, u2] _ _ _ _ hb0 hb1 hb2 hb3]
    rw [if_pos (by simp : 1 < ([u1, u2] : List (List (List Char))).length),
      if_neg (by simp : ¬ 2 < ([u1, u2] : List (List (List Char))).length),
      if_neg (by simp : ¬ 3 < ([u1, u2] : List (List (List Char))).length)]
    rw [hhead]
    simp only [slice_first]
    have hblock1 : (List.range' 2 u1.length).map (fun pos =>
        ((extendNames u1 u2).map
          (fun i => strCount i (((timeName :: totalName :: u1) ++ extendNames u1 u2 ++
            ([] : List (List Char)) ++ ([] : List (List Char))).getD pos []))).sum) =
        List.replicate u1.length u2.length := by
      have hsh : (timeName :: totalName :: u1) ++ extendNames u1 u2 ++
          ([] : List (List Char)) ++ ([] : List (List Char)) =
          [timeName, totalName] ++ (u1 ++ extendNames u1 u2) := by
        simp
      simp only [hsh]
      exact block_eval 2 u1.length [timeName, totalName] u1 (extendNames u1 u2) u2
        rfl rfl hnd1 hcf1
    rw [hblock1]
    rfl
  refine ⟨heq, ?_⟩
  rw [heq]
  have hpart := bucket_partition_length (mergeCols [u1, u2])
    (mergeCols_depth_lt [u1, u2] (by simp) h0)
  rw [hb0, hb1, hb2, hb3] at hpart
  simp only [List.length_cons, List.length_nil] at hpart
  rw [extendNames_length] at hpart
  simp only [idealNodes, idealAux, List.map_cons, List.map_nil, List.sum_cons,
    List.sum_nil, List.sum_replicate, smul_eq_mul]
  omega


theorem ohNodes_case3 (u1 u2 u3 : List (List Char))
    (h0 : ∀ u ∈ [u1, u2, u3], ∀ v ∈ u, countC v '_' = 0)
    (hnd1 : (extendNames u1 u2).Nodup)
    (hnd2 : (extendNames (extendNames u1 u2) u3).Nodup)
    (hcf1 : ∀ p ∈ u1, ∀ s ∈ extendNames u1 u2,
      strCount s p = if childOf u2 p s then 1 else 0)
    (hcf2 : ∀ p ∈ extendNames u1 u2, ∀ s ∈ extendNames (extendNames u1 u2) u3,
      strCount s p = if childOf u3 p s then 1 else 0) :
    orderHierNodes [u1, u2, u3] = idealNodes [u1, u2, u3] ∧
      ((orderHierNodes [u1, u2, u3]).map List.sum).sum =
        (mergeCols [u1, u2, u3]).length - 2 := by
  have hb0 : bucket (mergeCols [u1, u2, u3]) 0 = timeName :: totalName :: u1 :=
    bucket_mergeCols_zero u1 [u2, u3] h0
  have hb1 : bucket (mergeCols [u1, u2, u3]) 1 = extendNames u1 u2 := by
    have h := bucket_mergeCols_succ u1 [u2, u3] 0 h0
    exact h
  have hb2 : bucket (mergeCols [u1, u2, u3]) 2 = extendNames (extendNames u1 u2) u3 := by
    have h := bucket_mergeCols_succ u1 [u2, u3] 1 h0
    exact h
  have hb3 : bucket (mergeCols [u1, u2, u3]) 3 = ([] : List (List Char)) := by
    have h := bucket_mergeCols_succ u1 [u2, u3] 2 h0
    exact h
  have hhead : (timeName :: totalName :: u1).length - 2 = u1.length := by
    simp only [List.length_cons]
    omega
  have heq : orderHierNodes [u1, u2, u3] = idealNodes [u1, u2, u3] := by
    rw [orderHierNodes_buckets [u1, u2, u3] _ _ _ _ hb0 hb1 hb2 hb3]
    rw [if_pos (by simp : 1 < ([u1, u2, u3] : List (List (List Char))).length),
      if_pos (by simp : 2 < ([u1, u2, u3] : List (List (List Char))).length),
      if_neg (by simp : ¬ 3 < ([u1, u2, u3] : List (List (List Char))).length)]
    rw [hhead]
    simp only [slice_first, slice_second]
    have hblock1 : (List.range' 2 u1.length).map (fun pos =>
        ((extendNames u1 u2).map
          (fun i => strCount i (((timeName :: totalName :: u1) ++ extendNames u1 u2 ++
            extendNames (extendNames u1 u2) u3 ++
            ([] : List (List Char))).getD pos []))).sum) =
        List.replicate u1.length u2.length := by
      have hsh : (timeName :: totalName :: u1) ++ extendNames u1 u2 ++
          extendNames (extendNames u1 u2) u3 ++ ([] : List (List Char)) =
          [timeName, totalName] ++
            (u1 ++ (extendNames u1 u2 ++ extendNames (extendNames u1 u2) u3)) := by
        simp
      simp only [hsh]
      exact block_eval 2 u1.length [timeName, totalName] u1
        (extendNames u1 u2 ++ extendNames (extendNames u1 u2) u3) u2 rfl rfl hnd1 hcf1
    have hblock2 : (List.range' (timeName :: totalName :: u1).length
        (extendNames u1 u2).length).map (fun pos =>
        ((extendNames (extendNames u1 u2) u3).map
          (fun i => strCount i (((timeName :: totalName :: u1) ++ extendNames u1 u2 ++
            extendNames (extendNames u1 u2) u3 ++
            ([] : List (List Char))).getD pos []))).sum) =
        List.replicate (extendNames u1 u2).length u3.length := by
      have hsh : (timeName :: totalName :: u1) ++ extendNames u1 u2 ++
          extendNames (extendNames u1 u2) u3 ++ ([] : List (List Char)) =
          (timeName :: totalName :: u1) ++
            (extendNames u1 u2 ++ extendNames (extendNames u1 u2) u3) := by
        simp
      simp only [hsh]
      exact block_eval (timeName :: totalName :: u1).length (extendNames u1 u2).length
        (timeName :: totalName :: u1) (extendNames u1 u2)
        (extendNames (extendNames u1 u2) u3) u3 rfl rfl hnd2 hcf2
    rw [hblock1, hblock2]
    rw [extendNames_length u1 u2]
    rfl
  refine ⟨heq, ?_⟩
  rw [heq]
  have hpart := bucket_partition_length (mergeCols [u1, u2, u3])
    (mergeCols_depth_lt [u1, u2, u3] (by simp) h0)
  rw [hb0, hb1, hb2, hb3] at hpart
  simp only [List.length_cons, List.length_nil] at hpart
  rw [extendNames_length (extendNames u1 u2) u3, extendNames_length u1 u2] at hpart
  simp only [idealNodes, idealAux, List.map_cons, List.map_nil, List.sum_cons,
    List.sum_nil, List.sum_replicate, smul_eq_mul]
  omega


theorem ohNodes_case4 (u1 u2 u3 u4 : List (List Char))
    (h0 : ∀ u ∈ [u1, u2, u3, u4], ∀ v ∈ u, countC v '_' = 0)
    (hnd1 : (extendNames u1 u2).Nodup)
    (hnd2 : (extendNames (extendNames u1 u2) u3).Nodup)
    (hnd3 : (extendNames (extendNames (extendNames u1 u2) u3) u4).Nodup)
    (hcf1 : ∀ p ∈ u1, ∀ s ∈ extendNames u1 u2,
      strCount s p = if childOf u2 p s then 1 else 0)
    (hcf2 : ∀ p ∈ extendNames u1 u2, ∀ s ∈ extendNames (extendNames u1 u2) u3,
      strCount s p = if childOf u3 p s then 1 else 0)
    (hcf3 : ∀ p ∈ extendNames (extendNames u1 u2) u3,
      ∀ s ∈ extendNames (extendNames (extendNames u1 u2) u3) u4,
      strCount s p = if childOf u4 p s then 1 else 0) :
    orderHierNodes [u1, u2, u3, u4] = idealNodes [u1, u2, u3, u4] ∧
      ((orderHierNodes [u1, u2, u3, u4]).map List.sum).sum =
        (mergeCols [u1, u2, u3, u4]).length - 2 := by
  have hb0 : bucket (mergeCols [u1, u2, u3, u4]) 0 = timeName :: totalName :: u1 :=
    bucket_mergeCols_zero u1 [u2, u3, u4] h0
  have hb1 : bucket (mergeCols [u1, u2, u3, u4]) 1 = extendNames u1 u2 := by
    have h := bucket_mergeCols_succ u1 [u2, u3, u4] 0 h0
    exact h
  have hb2 : bucket (mergeCols [u1, u2, u3, u4]) 2 =
      extendNames (extendNames u1 u2) u3 := by
    have h := bucket_mergeCols_succ u1 [u2, u3, u4] 1 h0
    exact h
  have hb3 : bucket (mergeCols [u1, u2, u3, u4]) 3 =
      extendNames (extendNames (extendNames u1 u2) u3) u4 := by
    have h := bucket_mergeCols_succ u1 [u2, u3, u4] 2 h0
    exact h
  have hhead : (timeName :: totalName :: u1).length - 2 = u1.length := by
    simp only [List.length_cons]
    omega
  have heq : orderHierNodes [u1, u2, u3, u4] = idealNodes [u1, u2, u3, u4] := by
    rw [orderHierNodes_buckets [u1, u2, u3, u4] _ _ _ _ hb0 hb1 hb2 hb3]
    rw [if_pos (by simp : 1 < ([u1, u2, u3, u4] : List (List (List Char))).length),
      if_pos (by simp : 2 < ([u1, u2, u3, u4] : List (List (List Char))).length),
      if_pos (by simp : 3 < ([u1, u2, u3, u4] : List (List (List Char))).length)]
    rw [hhead]
    simp only [slice_first, slice_second, slice_third]
    have hblock1 : (List.range' 2 u1.length).map (fun pos =>
        ((extendNames u1 u2).map
          (fun i => strCount i (((timeName :: totalName :: u1) ++ extendNames u1 u2 ++
            extendNames (extendNames u1 u2) u3 ++
            extendNames (extendNames (extendNames u1 u2) u3) u4).getD pos []))).sum) =
        List.replicate u1.length u2.length := by
      have hsh : (timeName :: totalName :: u1) ++ extendNames u1 u2 ++
          extendNames (extendNames u1 u2) u3 ++
          extendNames (extendNames (extendNames u1 u2) u3) u4 =
          [timeName, totalName] ++
            (u1 ++ (extendNames u1 u2 ++ (extendNames (extendNames u1 u2) u3 ++
              extendNames (extendNames (extendNames u1 u2) u3) u4))) := by
        simp
      simp only [hsh]
      exact block_eval 2 u1.length [timeName, totalName] u1
        (extendNames u1 u2 ++ (extendNames (extendNames u1 u2) u3 ++
          extendNames (extendNames (extendNames u1 u2) u3) u4)) u2 rfl rfl hnd1 hcf1
    have hblock2 : (List.range' (timeName :: totalName :: u1).length
        (extendNames u1 u2).length).map (fun pos =>
        ((extendNames (extendNames u1 u2) u3).map
          (fun i => strCount i (((timeName :: totalName :: u1) ++ extendNames u1 u2 ++
            extendNames (extendNames u1 u2) u3 ++
            extendNames (extendNames (extendNames u1 u2) u3) u4).getD pos []))).sum) =
        List.replicate (extendNames u1 u2).length u3.length := by
      have hsh : (timeName :: totalName :: u1) ++ extendNames u1 u2 ++
          extendNames (extendNames u1 u2) u3 ++
          extendNames (extendNames (extendNames u1 u2) u3) u4 =
          (timeName :: totalName :: u1) ++
            (extendNames u1 u2 ++ (extendNames (extendNames u1 u2) u3 ++
              extendNames (extendNames (extendNames u1 u2) u3) u4)) := by
        simp
      simp only [hsh]
      exact block_eval (timeName :: totalName :: u1).length (extendNames u1 u2).length
        (timeName :: totalName :: u1) (extendNames u1 u2)
        (extendNames (extendNames u1 u2) u3 ++
          extendNames (extendNames (extendNames u1 u2) u3) u4) u3 rfl rfl hnd2 hcf2
    have hblock3 : (List.range' ((timeName :: totalName :: u1).length +
        (extendNames u1 u2).length) (extendNames (extendNames u1 u2) u3).length).map
        (fun pos =>
        ((extendNames (extendNames (extendNames u1 u2) u3) u4).map
          (fun i => strCount i (((timeName :: totalName :: u1) ++ extendNames u1 u2 ++
            extendNames (extendNames u1 u2) u3 ++
            extendNames (extendNames (extendNames u1 u2) u3) u4).getD pos []))).sum) =
        List.replicate (extendNames (extendNames u1 u2) u3).length u4.length := by
      have hsh : (timeName :: totalName :: u1) ++ extendNames u1 u2 ++
          extendNames (extendNames u1 u2) u3 ++
          extendNames (extendNames (extendNames u1 u2) u3) u4 =
          ((timeName :: totalName :: u1) ++ extendNames u1 u2) ++
            (extendNames (extendNames u1 u2) u3 ++
              extendNames (extendNames (extendNames u1 u2) u3) u4) := by
        simp
      simp only [hsh]
      exact block_eval ((timeName :: totalName :: u1).length +
          (extendNames u1 u2).length) (extendNames (extendNames u1 u2) u3).length
        ((timeName :: totalName :: u1) ++ extendNames u1 u2)
        (extendNames (extendNames u1 u2) u3)
        (extendNames (extendNames (extendNames u1 u2) u3) u4) u4
        (List.length_append _ _).symm rfl hnd3 hcf3
    rw [hblock1, hblock2, hblock3]
    rw [extendNames_length (extendNames u1 u2) u3, extendNames_length u1 u2]
    rfl
  refine ⟨heq, ?_⟩
  rw [heq]
  have hpart := bucket_partition_length (mergeCols [u1, u2, u3, u4])
    (mergeCols_depth_lt [u1, u2, u3, u4] (by simp) h0)
  rw [hb0, hb1, hb2, hb3] at hpart
  simp only [List.length_cons, List.length_nil] at hpart
  rw [extendNames_length (extendNames (extendNames u1 u2) u3) u4,
    extendNames_length (extendNames u1 u2) u3, extendNames_length u1 u2] at hpart
  simp only [idealNodes, idealAux, List.map_cons, List.map_nil, List.sum_cons,
    List.sum_nil, List.sum_replicate, smul_eq_mul]
  omega


/-- Counterexample to claim C8 as stated: the code counts with the Python
substring method `str.count`, not with a prefix match counting each name
at most once. With one level-1 value `A` and one level-2 value `A`, the
only level-2 column is named `A_A`, in which the parent name `A` occurs
twice as a substring, so the derived nodes list is `[[1], [2]]`; a prefix
count (each level-2 name counted at most once) gives 1, and the nodes list
sums to 3 while the wide table has 4 columns, breaking the claimed
columns-minus-2 invariant. -/
theorem orderHierNodes_counts_substrings_not_prefixes :
    orderHierNodes [[['A']], [['A']]] = [[1], [2]] ∧
      prefixCount ['A'] (bucket (mergeCols [[['A']], [['A']]]) 1) = 1 ∧
      ((orderHierNodes [[['A']], [['A']]]).map List.sum).sum = 3 ∧
      (mergeCols [[['A']], [['A']]]).length - 2 = 2 := by
  decide

/-- Claim C8 (amended): `orderHier` derives the topology descriptor by
substring counting (`i.count(parent)` over the next deeper underscore
bucket), with level 1 contributing the single entry `count1 - 2` (the
number of level-1 nodes). When the tag values contain no underscore and
the naming is collision-free — every level Nodup, and a parent name
occurring as a substring exactly once in each of its children and never
in another name of the child level — the derived descriptor equals the
ideal one (one entry per parent, each the next level distinct-value
count), and consequently the nodes list sums to the wide-table column
count minus 2. -/
theorem orderHierNodes_substring_counts (uniqs : List (List (List Char)))
    (hne : uniqs ≠ []) (hlen4 : uniqs.length ≤ 4)
    (h0 : ∀ u ∈ uniqs, ∀ v ∈ u, countC v '_' = 0)
    (hcf : CollisionFree uniqs) :
    orderHierNodes uniqs = idealNodes uniqs ∧
      ((orderHierNodes uniqs).map List.sum).sum = (mergeCols uniqs).length - 2 := by
  rcases uniqs with _ | ⟨u1, _ | ⟨u2, _ | ⟨u3, _ | ⟨u4, rest⟩⟩⟩⟩
  · exact absurd rfl hne
  · exact ohNodes_case1 u1 h0
  · exact ohNodes_case2 u1 u2 h0 (hcf.1 1 (by simp)) (hcf.2 0 (by simp))
  · exact ohNodes_case3 u1 u2 u3 h0 (hcf.1 1 (by simp)) (hcf.1 2 (by simp))
      (hcf.2 0 (by simp)) (hcf.2 1 (by simp))
  · rcases rest with _ | ⟨u5, rest⟩
    · exact ohNodes_case4 u1 u2 u3 u4 h0 (hcf.1 1 (by simp)) (hcf.1 2 (by simp))
        (hcf.1 3 (by simp)) (hcf.2 0 (by simp)) (hcf.2 1 (by simp))
        (hcf.2 2 (by simp))
    · simp only [List.length_cons] at hlen4
      omega

/-- Witness for C8 at the concrete two-level hierarchy with level-1 values
`a`, `b` and level-2 value `c`: the hypotheses hold by evaluation and the
derived nodes list is the ideal `[[2], [1, 1]]`, summing to the column
count minus 2. -/
theorem orderHierNodes_substring_counts_witness :
    ([[['a'], ['b']], [['c']]] : List (List (List Char))) ≠ [] ∧
      CollisionFree [[['a'], ['b']], [['c']]] ∧
      orderHierNodes [[['a'], ['b']], [['c']]] = idealNodes [[['a'], ['b']], [['c']]] ∧
      ((orderHierNodes [[['a'], ['b']], [['c']]]).map List.sum).sum =
        (mergeCols [[['a'], ['b']], [['c']]]).length - 2 :=
  ⟨by decide, by decide,
    (orderHierNodes_substring_counts [[['a'], ['b']], [['c']]] (by decide) (by decide)
      (by decide) (by decide)).1,
    (orderHierNodes_substring_counts [[['a'], ['b']], [['c']]] (by decide) (by decide)
      (by decide) (by decide)).2⟩

end HtsProphet
